import Mathlib

/-!
# Matrix multiply challenge: sequential and row-parallel multiply

A shallow embedding of `CH06/06_02/begin/matrix_multiply_challenge.cpp` and of
`matrix_multiply/lambda_iterable.hpp`.

Modelling conventions.

* A `long **` matrix is a list of rows, each row a list of `Int`.  Rows are
  separately allocated buffers (as `main` allocates them), so the three
  matrices `A`, `B`, `C` and their rows do not alias: the memory the multiply
  routines touch is the record `Mem`.
* Every index access is checked: a read or write outside a buffer gives
  `none` (undefined behaviour in the source), and `none` propagates.
* Arithmetic on `long` is the exact integer operation followed by a
  normalisation `w : Int → Int`.  `w = id` is exact integer arithmetic and
  `w = wrapLong` is two's complement arithmetic on 64 bits.
* `size_t` loop counters run from `0` up to a bound that is itself a `size_t`,
  so they never wrap and are modelled by `Nat`.
* The iterator loop of `std::accumulate` has no syntactic bound, so it takes
  fuel; running out of fuel gives `none`.
* The thread pool runs the posted row tasks one after the other in an order
  chosen by the scheduler, given as the list `sched` of positions in the task
  queue.
-/

namespace MatMul

/-! ## Memory -/

/-- A `long **`: rows of `long`. -/
abbrev Matrix := List (List Int)

/-- The contents of the three buffers the multiply routines get pointers to. -/
structure Mem where
  A : Matrix
  B : Matrix
  C : Matrix
deriving DecidableEq, Repr

/-- The read `M[i][j]`. -/
def read (M : Matrix) (i j : Nat) : Option Int :=
  match M[i]? with
  | none => none
  | some r => r[j]?

/-- The store `M[i][j] = v`. -/
def write (M : Matrix) (i j : Nat) (v : Int) : Option Matrix :=
  match M[i]? with
  | none => none
  | some r => if j < r.length then some (M.set i (r.set j v)) else none

/-- Two's complement normalisation of an integer to a signed 64 bit `long`. -/
def wrapLong (x : Int) : Int := (x + 2 ^ 63) % 2 ^ 64 - 2 ^ 63

/-- A counted loop `for (size_t k = 0; k < n; k++) body`. -/
def for_loop {σ : Type} (n : Nat) (body : Nat → σ → Option σ) (s : σ) : Option σ :=
  (List.range n).foldlM (fun s k => body k s) s

/-! ## sequential_matrix_multiply -/

/-- The innermost statement `C[i][j] += A[i][k] * B[k][j]`. -/
def seq_k_step (w : Int → Int) (i j k : Nat) (m : Mem) : Option Mem :=
  match read m.C i j, read m.A i k, read m.B k j with
  | some c, some a, some b =>
    match write m.C i j (w (c + w (a * b))) with
    | some C1 => some { m with C := C1 }
    | none => none
  | _, _, _ => none

/-- The body of the `j` loop: `C[i][j] = 0` followed by the `k` loop. -/
def seq_j_step (w : Int → Int) (num_cols_a : Nat) (i j : Nat) (m : Mem) : Option Mem :=
  match write m.C i j 0 with
  | some C0 => for_loop num_cols_a (seq_k_step w i j) { m with C := C0 }
  | none => none

/-- The sequential implementation of matrix multiply. -/
def sequential_matrix_multiply (w : Int → Int)
    (num_rows_a num_cols_a num_rows_b num_cols_b : Nat) (m : Mem) : Option Mem :=
  for_loop num_rows_a (fun i => for_loop num_cols_b (seq_j_step w num_cols_a i)) m

/-! ## LambdaIterable -/

/-- The class `LambdaIterable<V, I, P>`: `T` is the result type of `value`. -/
structure LambdaIterable (T P : Type) where
  value : P → T
  increment : P → P
  first : P
  last : P

/-- The nested class `LambdaIterable::iterator`. -/
structure iterator (T P : Type) where
  value : P → T
  increment : P → P
  position : P

/-- The dereference `operator*`. -/
def iterator.deref {T P : Type} (it : iterator T P) : T := it.value it.position

/-- The pre-increment `operator++`. -/
def iterator.next {T P : Type} (it : iterator T P) : iterator T P :=
  { it with position := it.increment it.position }

/-- The comparison `operator==`. -/
def iterator.eq {T P : Type} [DecidableEq P] (it other : iterator T P) : Bool :=
  decide (it.position = other.position)

/-- The comparison `operator!=`. -/
def iterator.ne {T P : Type} [DecidableEq P] (it other : iterator T P) : Bool :=
  !(it.eq other)

/-- The member `begin()`. -/
def LambdaIterable.begin {T P : Type} (l : LambdaIterable T P) : iterator T P :=
  { value := l.value, increment := l.increment, position := l.first }

/-- The member `end()`. -/
def LambdaIterable.end_ {T P : Type} (l : LambdaIterable T P) : iterator T P :=
  { value := l.value, increment := l.increment, position := l.last }

/-- The algorithm `std::accumulate(first, last, init, op)` over `LambdaIterable`
iterators whose values may fail:
`for (; first != last; ++first) init = op(init, *first); return init;`. -/
def accumulate {V P T : Type} [DecidableEq P] :
    Nat → iterator (Option V) P → iterator (Option V) P → T → (T → V → Option T) → Option T
  | 0, first, last, init, _ => if first.ne last then none else some init
  | fuel + 1, first, last, init, op =>
    if first.ne last then
      match first.deref with
      | none => none
      | some v =>
        match op init v with
        | none => none
        | some init1 => accumulate fuel first.next last init1 op
    else some init

/-- The loop `for (it = begin(); it != end(); ++it)` recording, for each
element visited, the position and the value there. -/
def traverse {T P : Type} [DecidableEq P] :
    Nat → iterator T P → iterator T P → Option (List (P × T))
  | 0, it, last => if it.ne last then none else some []
  | fuel + 1, it, last =>
    if it.ne last then
      match traverse fuel it.next last with
      | none => none
      | some rest => some ((it.position, it.deref) :: rest)
    else some []

/-! ## The reducers -/

/-- The function `zip_arrays_lazy(length, args...)` at two sources. -/
def zip_arrays_lazy {α β : Type} (length : Nat) (s1 : List α) (s2 : List β) :
    LambdaIterable (Option (α × β)) Nat :=
  { value := fun i =>
      match s1[i]?, s2[i]? with
      | some a, some b => some (a, b)
      | _, _ => none
    increment := fun i => i + 1
    first := 0
    last := length }

/-- The algorithm `std::inner_product(first1, first1 + n, first2, init, op1, op2)`
over two arrays; `k` is the offset of `first1` and `first2` into them:
`for (; first1 != last1; ++first1, ++first2) init = op1(init, op2(*first1, *first2));`. -/
def inner_product {α β T : Type} (row : List α) (column : List β)
    (op1 : T → T → T) (op2 : α → β → Option T) : Nat → Nat → T → Option T
  | 0, _, init => some init
  | n + 1, k, init =>
    match row[k]?, column[k]? with
    | some a, some b =>
      match op2 a b with
      | none => none
      | some p => inner_product row column op1 op2 n (k + 1) (op1 init p)
    | _, _ => none

/-- The function `product_row_column(row, column, length, mult)`. -/
def product_row_column {α β : Type} (w : Int → Int) (row : List α) (column : List β)
    (length : Nat) (mult : α → β → Option Int) : Option Int :=
  inner_product row column (fun x y => w (x + y)) mult length 0 0

/-- The function `product_row_column_but_with_accumulate(row, column, length, mult)`. -/
def product_row_column_but_with_accumulate {α β : Type} (w : Int → Int) (fuel : Nat)
    (row : List α) (column : List β) (length : Nat) (mult : α → β → Option Int) :
    Option Int :=
  let row_column_pairs := zip_arrays_lazy length row column
  accumulate fuel row_column_pairs.begin row_column_pairs.end_ (0 : Int)
    (fun sum pair =>
      match mult pair.1 pair.2 with
      | none => none
      | some p => some (w (sum + p)))

/-! ## parallel_matrix_multiply -/

/-- The combine passed by the row task: `[j](a, b) { return a * b[j]; }`. -/
def mult_col (w : Int → Int) (j : Nat) (a : Int) (b : List Int) : Option Int :=
  match b[j]? with
  | none => none
  | some x => some (w (a * x))

/-- The body of the loop of a row task:
`C[i][j] = product_row_column_but_with_accumulate(A[i], B, num_cols_a, mult)`. -/
def row_task_step (w : Int → Int) (fuel : Nat) (num_cols_a : Nat) (i j : Nat) (m : Mem) :
    Option Mem :=
  match m.A[i]? with
  | none => none
  | some Ai =>
    match product_row_column_but_with_accumulate w fuel Ai m.B num_cols_a (mult_col w j) with
    | none => none
    | some v =>
      match write m.C i j v with
      | none => none
      | some C1 => some { m with C := C1 }

/-- The task posted for row `i`. -/
def row_task (w : Int → Int) (fuel : Nat) (num_cols_a num_cols_b : Nat) (i : Nat) (m : Mem) :
    Option Mem :=
  for_loop num_cols_b (row_task_step w fuel num_cols_a i) m

/-- The tasks `parallel_matrix_multiply` posts to the pool, in posting order:
`for (size_t i = 0; i < num_rows_a; i++) post(pool, task i)`. -/
def posted_tasks (w : Int → Int) (fuel : Nat) (num_rows_a num_cols_a num_cols_b : Nat) :
    List (Mem → Option Mem) :=
  (List.range num_rows_a).map (fun i => row_task w fuel num_cols_a num_cols_b i)

/-- The parallel implementation of matrix multiply: one task per row is posted,
the pool runs the posted tasks in the order `sched` (a list of positions in the
queue; a position where nothing was posted runs nothing), and `join` returns
the memory after the last of them. -/
def parallel_matrix_multiply (w : Int → Int) (fuel : Nat) (sched : List Nat)
    (num_rows_a num_cols_a num_rows_b num_cols_b : Nat) (m : Mem) : Option Mem :=
  sched.foldlM
    (fun m t =>
      match (posted_tasks w fuel num_rows_a num_cols_a num_cols_b)[t]? with
      | some task => task m
      | none => some m)
    m

/-! ## Specification-side notions -/

/-- The matrix `M` has exactly `r` rows of exactly `c` entries. -/
def HasShape (M : Matrix) (r c : Nat) : Prop :=
  M.length = r ∧ ∀ row ∈ M, row.length = c

instance (M : Matrix) (r c : Nat) : Decidable (HasShape M r c) := by
  unfold HasShape; infer_instance

/-- The entry `M[i][j]` as a total function (`0` outside the matrix). -/
def entry (M : Matrix) (i j : Nat) : Int := (read M i j).getD 0

/-- The value the code leaves in cell `(i, j)`: the left fold, from `0`, of the
`n` normalised products `A[i][k] * B[k][j]` under normalised addition. -/
def dot (w : Int → Int) (A B : Matrix) (i j n : Nat) : Int :=
  (List.range n).foldl (fun s k => w (s + w (entry A i k * entry B k j))) 0

/-- The store of the finished dot product into cell `(i, j)`. -/
def cell_step (w : Int → Int) (n : Nat) (i j : Nat) (m : Mem) : Option Mem :=
  match write m.C i j (dot w m.A m.B i j n) with
  | some C1 => some { m with C := C1 }
  | none => none

/-- The `n` by `n` identity matrix. -/
def identity (n : Nat) : Matrix :=
  (List.range n).map (fun i => (List.range n).map (fun j => if i = j then 1 else 0))

/-- Every entry of `M` lies in `lo..hi`. -/
def EntriesIn (M : Matrix) (lo hi : Int) : Prop :=
  ∀ row ∈ M, ∀ x ∈ row, lo ≤ x ∧ x ≤ hi

instance (M : Matrix) (lo hi : Int) : Decidable (EntriesIn M lo hi) := by
  unfold EntriesIn; infer_instance

/-- The `r` by `c` matrix whose entry `(i, j)` is `f i j`. -/
def table (r c : Nat) (f : Nat → Nat → Int) : Matrix :=
  (List.range r).map (fun i => (List.range c).map (fun j => f i j))

/-- The matrix the code computes from `A` and `B`. -/
def product (w : Int → Int) (A B : Matrix) (num_rows_a num_cols_a num_cols_b : Nat) : Matrix :=
  table num_rows_a num_cols_b (fun i j => dot w A B i j num_cols_a)

/-! ## Counted loops -/

theorem for_loop_zero {σ : Type} (body : Nat → σ → Option σ) (s : σ) :
    for_loop 0 body s = some s := rfl

theorem for_loop_succ {σ : Type} (n : Nat) (body : Nat → σ → Option σ) (s : σ) :
    for_loop (n + 1) body s = (for_loop n body s).bind (body n) := by
  unfold for_loop
  rw [List.range_succ, List.foldlM_append]
  cases h : List.foldlM (fun s k => body k s) s (List.range n) with
  | none => rfl
  | some s1 =>
    show (List.foldlM (fun s k => body k s) s1 [n]) = body n s1
    simp [List.foldlM]

/-! ## Reads and writes -/

theorem read_eq_some_iff {M : Matrix} {i j : Nat} {v : Int} :
    read M i j = some v ↔ ∃ r, M[i]? = some r ∧ r[j]? = some v := by
  unfold read
  cases h : M[i]? with
  | none => simp
  | some r => simp

theorem write_eq_some_iff {M M1 : Matrix} {i j : Nat} {v : Int} :
    write M i j v = some M1 ↔
      ∃ r, M[i]? = some r ∧ j < r.length ∧ M1 = M.set i (r.set j v) := by
  unfold write
  cases h : M[i]? with
  | none => simp
  | some r =>
    by_cases hj : j < r.length
    · simp [hj, eq_comm]
    · simp [hj]

theorem write_isSome_of_read {M : Matrix} {i j : Nat} {c : Int} (v : Int)
    (h : read M i j = some c) : ∃ M1, write M i j v = some M1 := by
  obtain ⟨r, hr, hj⟩ := read_eq_some_iff.1 h
  have hlt : j < r.length := (List.getElem?_eq_some.1 hj).1
  exact ⟨M.set i (r.set j v), write_eq_some_iff.2 ⟨r, hr, hlt, rfl⟩⟩

theorem read_write {M M1 : Matrix} {i j : Nat} {v : Int} (h : write M i j v = some M1)
    (p q : Nat) : read M1 p q = if p = i ∧ q = j then some v else read M p q := by
  obtain ⟨r, hr, hj, rfl⟩ := write_eq_some_iff.1 h
  have hi : i < M.length := (List.getElem?_eq_some.1 hr).1
  unfold read
  by_cases hp : p = i
  · subst hp
    rw [List.getElem?_set_self hi, hr]
    by_cases hq : q = j
    · subst hq; simp [List.getElem?_set_self hj]
    · simp [hq, List.getElem?_set_ne (Ne.symm hq)]
  · rw [List.getElem?_set_ne (Ne.symm hp)]
    simp [hp]

theorem write_lengths {M M1 : Matrix} {i j : Nat} {v : Int} (h : write M i j v = some M1) :
    M1.map List.length = M.map List.length := by
  obtain ⟨r, hr, _, rfl⟩ := write_eq_some_iff.1 h
  obtain ⟨hi, hri⟩ := List.getElem?_eq_some.1 hr
  rw [List.map_set, List.length_set]
  apply List.ext_getElem?
  intro n
  rw [List.getElem?_set]
  by_cases hn : i = n
  · subst hn; simp [hi, hri]
  · simp [hn]

theorem write_write {M M1 : Matrix} {i j : Nat} {v : Int} (h : write M i j v = some M1)
    (v1 : Int) : write M1 i j v1 = write M i j v1 := by
  obtain ⟨r, hr, hj, rfl⟩ := write_eq_some_iff.1 h
  have hi : i < M.length := (List.getElem?_eq_some.1 hr).1
  unfold write
  rw [List.getElem?_set_self hi, hr]
  simp [hj, List.set_set]

theorem write_read_self {M : Matrix} {i j : Nat} {c : Int} (h : read M i j = some c) :
    write M i j c = some M := by
  obtain ⟨r, hr, hj⟩ := read_eq_some_iff.1 h
  obtain ⟨hlt, hjc⟩ := List.getElem?_eq_some.1 hj
  obtain ⟨hi, hri⟩ := List.getElem?_eq_some.1 hr
  refine write_eq_some_iff.2 ⟨r, hr, hlt, ?_⟩
  have h1 : r.set j c = r := by
    apply List.ext_getElem?
    intro n
    rw [List.getElem?_set]
    by_cases hn : j = n
    · subst hn; simp [hlt, hjc]
    · simp [hn]
  rw [h1]
  apply List.ext_getElem?
  intro n
  rw [List.getElem?_set]
  by_cases hn : i = n
  · subst hn; simp [hi, hri]
  · simp [hn]

theorem read_of_shape {M : Matrix} {r c i j : Nat} (h : HasShape M r c) (hi : i < r)
    (hj : j < c) : read M i j = some (entry M i j) := by
  obtain ⟨hl, hrow⟩ := h
  have hi1 : i < M.length := by omega
  have hlen : (M[i]).length = c := hrow _ (List.getElem_mem hi1)
  have : read M i j = some ((M[i])[j]) := by
    unfold read
    rw [List.getElem?_eq_getElem hi1]
    exact List.getElem?_eq_getElem (by omega)
  rw [entry, this]; rfl

theorem row_of_shape {M : Matrix} {r c i : Nat} (h : HasShape M r c) (hi : i < r) :
    ∃ row, M[i]? = some row ∧ row.length = c := by
  obtain ⟨hl, hrow⟩ := h
  have hi1 : i < M.length := by omega
  exact ⟨M[i], List.getElem?_eq_getElem hi1, hrow _ (List.getElem_mem hi1)⟩

theorem shape_of_lengths {M M1 : Matrix} {r c : Nat} (h : HasShape M r c)
    (hl : M1.map List.length = M.map List.length) : HasShape M1 r c := by
  obtain ⟨h1, h2⟩ := h
  constructor
  · have := congrArg List.length hl
    simpa [h1] using this
  · intro row hrow
    have hmem : row.length ∈ M1.map List.length := List.mem_map_of_mem _ hrow
    rw [hl] at hmem
    obtain ⟨row1, hrow1, heq⟩ := List.mem_map.1 hmem
    rw [← heq]; exact h2 _ hrow1

theorem matrix_ext {M M1 : Matrix} (hl : M1.map List.length = M.map List.length)
    (hr : ∀ p q, read M1 p q = read M p q) : M1 = M := by
  apply List.ext_getElem?
  intro p
  have hlp := congrArg (fun l => l[p]?) hl
  simp only [List.getElem?_map] at hlp
  cases h1 : M1[p]? with
  | none =>
    cases h : M[p]? with
    | none => rfl
    | some r => rw [h1, h] at hlp; simp at hlp
  | some r1 =>
    cases h : M[p]? with
    | none => rw [h1, h] at hlp; simp at hlp
    | some r =>
      congr 1
      apply List.ext_getElem?
      intro q
      have := hr p q
      simpa [read, h1, h] using this

/-! ## The two reducers -/

/-- The value function of the zip does not depend on the length, so `begin()`
is the iterator of the zip standing at position `0`. -/
theorem zip_begin_eq {α β : Type} (L : Nat) (row : List α) (column : List β) :
    (zip_arrays_lazy L row column).begin =
      { value := (zip_arrays_lazy 0 row column).value, increment := fun i => i + 1,
        position := 0 } := rfl

theorem zip_end_eq {α β : Type} (L : Nat) (row : List α) (column : List β) :
    (zip_arrays_lazy L row column).end_ =
      { value := (zip_arrays_lazy 0 row column).value, increment := fun i => i + 1,
        position := L } := rfl

theorem accumulate_zip {α β : Type} (w : Int → Int) (row : List α) (column : List β)
    (mult : α → β → Option Int) :
    ∀ (n fuel k : Nat) (init : Int), n ≤ fuel →
      accumulate fuel
        { value := (zip_arrays_lazy 0 row column).value, increment := fun i => i + 1,
          position := k }
        { value := (zip_arrays_lazy 0 row column).value, increment := fun i => i + 1,
          position := k + n }
        init
        (fun sum pair =>
          match mult pair.1 pair.2 with
          | none => none
          | some p => some (w (sum + p)))
      = inner_product row column (fun x y => w (x + y)) mult n k init := by
  intro n
  induction n with
  | zero =>
    intro fuel k init _
    cases fuel <;> simp [accumulate, inner_product, iterator.ne, iterator.eq]
  | succ n ih =>
    intro fuel k init hf
    obtain ⟨f, rfl⟩ : ∃ f, fuel = f + 1 := ⟨fuel - 1, by omega⟩
    have hne : k ≠ k + (n + 1) := by omega
    have hpos : k + (n + 1) = (k + 1) + n := by omega
    have ih1 := ih f (k + 1)
    simp only [accumulate, inner_product, iterator.ne, iterator.eq, iterator.deref,
      iterator.next, zip_arrays_lazy, hne, decide_False, Bool.not_false, if_true]
    simp only [zip_arrays_lazy] at ih1
    cases hr : row[k]? with
    | none => simp
    | some a =>
      cases hc : column[k]? with
      | none => simp
      | some b =>
        cases hm : mult a b with
        | none => simp [hm]
        | some p =>
          simp only [hm]
          rw [hpos]
          exact ih1 (w (init + p)) (by omega)

theorem inner_product_total {α β T : Type} (row : List α) (column : List β)
    (op1 : T → T → T) (op2 : α → β → Option T) (g : Nat → T) :
    ∀ (n k : Nat) (init : T),
      (∀ t, k ≤ t → t < k + n →
        ∃ a b, row[t]? = some a ∧ column[t]? = some b ∧ op2 a b = some (g t)) →
      inner_product row column op1 op2 n k init =
        some ((List.range' k n).foldl (fun s t => op1 s (g t)) init) := by
  intro n
  induction n with
  | zero => intro k init _; simp [inner_product]
  | succ n ih =>
    intro k init h
    obtain ⟨a, b, ha, hb, hab⟩ := h k (le_refl k) (by omega)
    simp only [inner_product, ha, hb, hab, List.range'_succ, List.foldl_cons]
    exact ih (k + 1) (op1 init (g k)) (fun t h1 h2 => h t (by omega) (by omega))

/-- The two reducers agree on every input, failing reads and combines included. -/
theorem reducers_agree {α β : Type} (w : Int → Int) (fuel : Nat) (row : List α)
    (column : List β) (length : Nat) (mult : α → β → Option Int) (hf : length ≤ fuel) :
    product_row_column_but_with_accumulate w fuel row column length mult =
      product_row_column w row column length mult := by
  unfold product_row_column_but_with_accumulate product_row_column
  simp only [zip_begin_eq, zip_end_eq]
  have := accumulate_zip w row column mult length fuel 0 0 hf
  simpa using this

theorem foldl_id_eq_sum (g : Nat → Int) (n : Nat) :
    (List.range n).foldl (fun s t => id (s + g t)) 0 = ∑ t ∈ Finset.range n, g t := by
  induction n with
  | zero => simp
  | succ n ih => rw [List.range_succ, List.foldl_append, ih, Finset.sum_range_succ]; simp

/-! ## Arithmetic on 64 bits -/

theorem wrapLong_eq_self (x : Int) (h1 : -2 ^ 63 ≤ x) (h2 : x < 2 ^ 63) : wrapLong x = x := by
  unfold wrapLong
  omega

theorem wrapLong_add (x y : Int) : wrapLong (wrapLong x + wrapLong y) = wrapLong (x + y) := by
  unfold wrapLong
  omega

theorem wrapLong_add_left (x y : Int) : wrapLong (wrapLong x + y) = wrapLong (x + y) := by
  unfold wrapLong
  omega

/-- A running sum kept in 64 bits is the exact sum reduced to the `long` range. -/
theorem foldl_wrapLong_eq_sum (g : Nat → Int) (n : Nat) :
    (List.range n).foldl (fun s t => wrapLong (s + g t)) 0 =
      wrapLong (∑ t ∈ Finset.range n, g t) := by
  induction n with
  | zero =>
    have h0 : wrapLong 0 = 0 := by decide
    simp [h0]
  | succ n ih =>
    rw [List.range_succ, List.foldl_append, ih, Finset.sum_range_succ]
    exact wrapLong_add_left _ _

/-! ## One cell -/

theorem mem_eta (m : Mem) : ({ m with C := m.C } : Mem) = m := by cases m; rfl

theorem write_none_indep {M : Matrix} {i j : Nat} {v : Int} (h : write M i j v = none)
    (v1 : Int) : write M i j v1 = none := by
  unfold write at h ⊢
  cases hr : M[i]? with
  | none => rfl
  | some r =>
    rw [hr] at h
    by_cases hj : j < r.length
    · simp [hj] at h
    · simp [hj]

theorem seq_k_loop (w : Int → Int) (i j : Nat) (m : Mem) (c0 : Int) (n : Nat)
    (hc : read m.C i j = some c0)
    (hA : ∀ k < n, read m.A i k = some (entry m.A i k))
    (hB : ∀ k < n, read m.B k j = some (entry m.B k j)) :
    for_loop n (seq_k_step w i j) m =
      match write m.C i j
          ((List.range n).foldl (fun s k => w (s + w (entry m.A i k * entry m.B k j))) c0) with
      | some C1 => some { m with C := C1 }
      | none => none := by
  induction n with
  | zero =>
    simp only [for_loop_zero, List.range_zero, List.foldl_nil, write_read_self hc, mem_eta]
  | succ n ih =>
    rw [for_loop_succ, ih (fun k hk => hA k (by omega)) (fun k hk => hB k (by omega))]
    obtain ⟨Cn, hCn⟩ := write_isSome_of_read
      ((List.range n).foldl (fun s k => w (s + w (entry m.A i k * entry m.B k j))) c0) hc
    rw [hCn, List.range_succ, List.foldl_append]
    simp only [Option.some_bind, seq_k_step, read_write hCn i j, and_self, if_true,
      hA n (by omega), hB n (by omega), write_write hCn, List.foldl_cons, List.foldl_nil]

theorem seq_j_step_eq (w : Int → Int) (num_cols_a i j : Nat) (m : Mem)
    (hA : ∀ k < num_cols_a, read m.A i k = some (entry m.A i k))
    (hB : ∀ k < num_cols_a, read m.B k j = some (entry m.B k j)) :
    seq_j_step w num_cols_a i j m = cell_step w num_cols_a i j m := by
  unfold seq_j_step cell_step
  cases h0 : write m.C i j 0 with
  | none => simp [write_none_indep h0]
  | some C0 =>
    have hrd : read C0 i j = some 0 := by rw [read_write h0]; simp
    have := seq_k_loop w i j { m with C := C0 } 0 num_cols_a hrd hA hB
    simp only [this, write_write h0]
    unfold dot
    cases write m.C i j _ <;> rfl

theorem reducer_dot (w : Int → Int) (fuel n i j : Nat) (A B : Matrix) (Ai : List Int)
    (hf : n ≤ fuel) (hAi : A[i]? = some Ai)
    (hA : ∀ k < n, read A i k = some (entry A i k))
    (hB : ∀ k < n, read B k j = some (entry B k j)) :
    product_row_column_but_with_accumulate w fuel Ai B n (mult_col w j) =
      some (dot w A B i j n) := by
  rw [reducers_agree w fuel Ai B n _ hf]
  unfold product_row_column dot
  rw [inner_product_total Ai B _ _ (fun k => w (entry A i k * entry B k j)),
    List.range_eq_range']
  intro t _ ht
  have h1 := hA t (by omega)
  have h2 := hB t (by omega)
  obtain ⟨r1, hr1, hv1⟩ := read_eq_some_iff.1 h1
  obtain ⟨r2, hr2, hv2⟩ := read_eq_some_iff.1 h2
  rw [hAi] at hr1
  cases hr1
  exact ⟨_, r2, hv1, hr2, by simp [mult_col, hv2]⟩

theorem row_task_step_eq (w : Int → Int) (fuel num_cols_a i j : Nat) (m : Mem)
    (hf : num_cols_a ≤ fuel) (hi : ∃ Ai, m.A[i]? = some Ai)
    (hA : ∀ k < num_cols_a, read m.A i k = some (entry m.A i k))
    (hB : ∀ k < num_cols_a, read m.B k j = some (entry m.B k j)) :
    row_task_step w fuel num_cols_a i j m = cell_step w num_cols_a i j m := by
  obtain ⟨Ai, hAi⟩ := hi
  unfold row_task_step cell_step
  simp only [hAi, reducer_dot w fuel num_cols_a i j m.A m.B Ai hf hAi hA hB]
  cases write m.C i j _ <;> rfl

theorem dot_succ (w : Int → Int) (A B : Matrix) (i j n : Nat) :
    dot w A B i j (n + 1) = w (dot w A B i j n + w (entry A i n * entry B n j)) := by
  unfold dot
  rw [List.range_succ, List.foldl_append]
  rfl

/-! ## Tables -/

theorem lengths_of_shape {M : Matrix} {r c : Nat} (h : HasShape M r c) :
    M.map List.length = List.replicate r c := by
  obtain ⟨h1, h2⟩ := h
  rw [List.eq_replicate_iff]
  refine ⟨by simp [h1], ?_⟩
  intro b hb
  obtain ⟨row, hrow, rfl⟩ := List.mem_map.1 hb
  exact h2 _ hrow

theorem shape_table (r c : Nat) (f : Nat → Nat → Int) : HasShape (table r c f) r c := by
  constructor
  · simp [table]
  · intro row hrow
    obtain ⟨i, _, rfl⟩ := List.mem_map.1 hrow
    simp

theorem read_table {r c : Nat} (f : Nat → Nat → Int) {i j : Nat} (hi : i < r) (hj : j < c) :
    read (table r c f) i j = some (f i j) := by
  simp [read, table, List.getElem?_map, List.getElem?_range hi, List.getElem?_range hj]

theorem read_none_of_shape {M : Matrix} {r c : Nat} (h : HasShape M r c) {i j : Nat}
    (hij : ¬ (i < r ∧ j < c)) : read M i j = none := by
  obtain ⟨h1, h2⟩ := h
  unfold read
  cases hr : M[i]? with
  | none => rfl
  | some row =>
    obtain ⟨hi, hrow⟩ := List.getElem?_eq_some.1 hr
    have hlen : row.length = c := h2 _ (hrow ▸ List.getElem_mem hi)
    exact List.getElem?_eq_none (by omega)

theorem eq_table {M : Matrix} {r c : Nat} (f : Nat → Nat → Int) (h : HasShape M r c)
    (hr : ∀ i < r, ∀ j < c, read M i j = some (f i j)) : M = table r c f := by
  apply matrix_ext
  · rw [lengths_of_shape h, lengths_of_shape (shape_table r c f)]
  · intro p q
    by_cases hpq : p < r ∧ q < c
    · rw [hr p hpq.1 q hpq.2, read_table f hpq.1 hpq.2]
    · rw [read_none_of_shape h hpq, read_none_of_shape (shape_table r c f) hpq]

/-! ## One row, then all rows -/

theorem cell_step_spec (w : Int → Int) (n i j : Nat) (m : Mem) (c : Int)
    (hc : read m.C i j = some c) :
    ∃ m1, cell_step w n i j m = some m1 ∧ m1.A = m.A ∧ m1.B = m.B ∧
      m1.C.map List.length = m.C.map List.length ∧
      ∀ p q, read m1.C p q =
        if p = i ∧ q = j then some (dot w m.A m.B i j n) else read m.C p q := by
  obtain ⟨C1, hC1⟩ := write_isSome_of_read (dot w m.A m.B i j n) hc
  refine ⟨{ m with C := C1 }, by simp [cell_step, hC1], rfl, rfl, write_lengths hC1, ?_⟩
  intro p q
  exact read_write hC1 p q

theorem row_loop (w : Int → Int) (num_cols_a i : Nat) (A0 B0 : Matrix)
    (f : Nat → Mem → Option Mem) (n : Nat)
    (hf : ∀ j < n, ∀ m : Mem, m.A = A0 → m.B = B0 → f j m = cell_step w num_cols_a i j m)
    (m : Mem) (hA : m.A = A0) (hB : m.B = B0)
    (hC : ∀ j < n, ∃ c, read m.C i j = some c) :
    ∃ m1, for_loop n f m = some m1 ∧ m1.A = A0 ∧ m1.B = B0 ∧
      m1.C.map List.length = m.C.map List.length ∧
      ∀ p q, read m1.C p q =
        if p = i ∧ q < n then some (dot w A0 B0 i q num_cols_a) else read m.C p q := by
  induction n with
  | zero => exact ⟨m, rfl, hA, hB, rfl, by simp⟩
  | succ n ih =>
    obtain ⟨m1, h1, h1A, h1B, h1L, h1R⟩ :=
      ih (fun j hj => hf j (by omega)) (fun j hj => hC j (by omega))
    obtain ⟨c, hc⟩ := hC n (by omega)
    have hc1 : read m1.C i n = some c := by rw [h1R]; simpa using hc
    obtain ⟨m2, h2, h2A, h2B, h2L, h2R⟩ := cell_step_spec w num_cols_a i n m1 c hc1
    refine ⟨m2, ?_, by rw [h2A, h1A], by rw [h2B, h1B], by rw [h2L, h1L], ?_⟩
    · rw [for_loop_succ, h1, Option.some_bind, hf n (by omega) m1 h1A h1B, h2]
    · intro p q
      rw [h2R, h1R, h1A, h1B]
      by_cases hp : p = i
      · by_cases hq : q = n
        · subst hp; subst hq; simp
        · have : q < n + 1 ↔ q < n := by omega
          simp [hp, hq, this]
      · simp [hp]

theorem run_rows (w : Int → Int) (num_rows_a num_cols_a num_cols_b : Nat) (A0 B0 : Matrix)
    (R : Nat → Mem → Option Mem)
    (hR : ∀ i < num_rows_a, ∀ m : Mem, m.A = A0 → m.B = B0 →
      (∀ j < num_cols_b, ∃ c, read m.C i j = some c) →
      ∃ m1, R i m = some m1 ∧ m1.A = A0 ∧ m1.B = B0 ∧
        m1.C.map List.length = m.C.map List.length ∧
        ∀ p q, read m1.C p q =
          if p = i ∧ q < num_cols_b then some (dot w A0 B0 i q num_cols_a)
          else read m.C p q) :
    ∀ (order : List Nat) (m : Mem), (∀ i ∈ order, i < num_rows_a) → m.A = A0 → m.B = B0 →
      (∀ i < num_rows_a, ∀ j < num_cols_b, ∃ c, read m.C i j = some c) →
      ∃ m1, order.foldlM (fun m i => R i m) m = some m1 ∧ m1.A = A0 ∧ m1.B = B0 ∧
        m1.C.map List.length = m.C.map List.length ∧
        ∀ p q, read m1.C p q =
          if p ∈ order ∧ q < num_cols_b then some (dot w A0 B0 p q num_cols_a)
          else read m.C p q := by
  intro order
  induction order with
  | nil => intro m _ hA hB _; exact ⟨m, rfl, hA, hB, rfl, by simp⟩
  | cons i rest ih =>
    intro m ho hA hB hC
    have hi : i < num_rows_a := ho i (List.mem_cons_self _ _)
    obtain ⟨m1, h1, h1A, h1B, h1L, h1R⟩ := hR i hi m hA hB (hC i hi)
    have hC1 : ∀ p < num_rows_a, ∀ q < num_cols_b, ∃ c, read m1.C p q = some c := by
      intro p hp q hq
      rw [h1R]
      by_cases h : p = i ∧ q < num_cols_b
      · exact ⟨_, by rw [if_pos h]⟩
      · rw [if_neg h]; exact hC p hp q hq
    obtain ⟨m2, h2, h2A, h2B, h2L, h2R⟩ :=
      ih m1 (fun t ht => ho t (List.mem_cons_of_mem _ ht)) h1A h1B hC1
    refine ⟨m2, ?_, h2A, h2B, by rw [h2L, h1L], ?_⟩
    · rw [List.foldlM_cons, h1]; exact h2
    · intro p q
      rw [h2R, h1R]
      by_cases hq : q < num_cols_b
      · by_cases hp : p ∈ rest
        · simp [hp, hq]
        · by_cases hpi : p = i
          · subst hpi; simp [hq]
          · simp [hp, hpi, hq]
      · simp [hq]

theorem readable_of_shape {M : Matrix} {r c : Nat} (h : HasShape M r c)
    (L : Matrix) (hL : L.map List.length = M.map List.length) :
    ∀ i < r, ∀ j < c, ∃ v, read L i j = some v :=
  fun _ hi _ hj => ⟨_, read_of_shape (shape_of_lengths h hL) hi hj⟩

/-- The row body of the sequential multiply meets the row specification. -/
theorem seq_row_spec (w : Int → Int) (num_rows_a num_cols_a num_cols_b : Nat) (A0 B0 : Matrix)
    (hA : HasShape A0 num_rows_a num_cols_a) (hB : HasShape B0 num_cols_a num_cols_b)
    (i : Nat) (hi : i < num_rows_a) (m : Mem) (hmA : m.A = A0) (hmB : m.B = B0)
    (hC : ∀ j < num_cols_b, ∃ c, read m.C i j = some c) :
    ∃ m1, for_loop num_cols_b (seq_j_step w num_cols_a i) m = some m1 ∧ m1.A = A0 ∧
      m1.B = B0 ∧ m1.C.map List.length = m.C.map List.length ∧
      ∀ p q, read m1.C p q =
        if p = i ∧ q < num_cols_b then some (dot w A0 B0 i q num_cols_a)
        else read m.C p q := by
  apply row_loop w num_cols_a i A0 B0 _ num_cols_b _ m hmA hmB hC
  intro j hj m2 h2A h2B
  apply seq_j_step_eq
  · intro k hk; rw [h2A]; exact read_of_shape hA hi hk
  · intro k hk; rw [h2B]; exact read_of_shape hB hk hj

/-- The task posted for a row meets the row specification. -/
theorem row_task_spec (w : Int → Int) (fuel num_rows_a num_cols_a num_cols_b : Nat)
    (A0 B0 : Matrix) (hf : num_cols_a ≤ fuel)
    (hA : HasShape A0 num_rows_a num_cols_a) (hB : HasShape B0 num_cols_a num_cols_b)
    (i : Nat) (hi : i < num_rows_a) (m : Mem) (hmA : m.A = A0) (hmB : m.B = B0)
    (hC : ∀ j < num_cols_b, ∃ c, read m.C i j = some c) :
    ∃ m1, row_task w fuel num_cols_a num_cols_b i m = some m1 ∧ m1.A = A0 ∧
      m1.B = B0 ∧ m1.C.map List.length = m.C.map List.length ∧
      ∀ p q, read m1.C p q =
        if p = i ∧ q < num_cols_b then some (dot w A0 B0 i q num_cols_a)
        else read m.C p q := by
  apply row_loop w num_cols_a i A0 B0 _ num_cols_b _ m hmA hmB hC
  intro j hj m2 h2A h2B
  apply row_task_step_eq w fuel num_cols_a i j m2 hf
  · obtain ⟨row, hrow, _⟩ := row_of_shape hA hi
    exact ⟨row, by rw [h2A]; exact hrow⟩
  · intro k hk; rw [h2A]; exact read_of_shape hA hi hk
  · intro k hk; rw [h2B]; exact read_of_shape hB hk hj

theorem posted_tasks_get (w : Int → Int) (fuel num_rows_a num_cols_a num_cols_b t : Nat)
    (ht : t < num_rows_a) :
    (posted_tasks w fuel num_rows_a num_cols_a num_cols_b)[t]? =
      some (row_task w fuel num_cols_a num_cols_b t) := by
  simp [posted_tasks, List.getElem?_map, List.getElem?_range ht]

theorem finish_run {w : Int → Int} {num_rows_a num_cols_a num_cols_b : Nat} {A B C : Matrix}
    {order : List Nat} {r : Option Mem} (hC : HasShape C num_rows_a num_cols_b)
    (hall : ∀ i < num_rows_a, i ∈ order)
    (h : ∃ m1, r = some m1 ∧ m1.A = A ∧ m1.B = B ∧
      m1.C.map List.length = C.map List.length ∧
      ∀ p q, read m1.C p q =
        if p ∈ order ∧ q < num_cols_b then some (dot w A B p q num_cols_a)
        else read C p q) :
    r = some ⟨A, B, product w A B num_rows_a num_cols_a num_cols_b⟩ := by
  obtain ⟨m1, h1, h1A, h1B, h1L, h1R⟩ := h
  have hC1 : m1.C = product w A B num_rows_a num_cols_a num_cols_b := by
    apply eq_table _ (shape_of_lengths hC h1L)
    intro i hi j hj
    rw [h1R, if_pos ⟨hall i hi, hj⟩]
  rw [h1]
  cases m1
  simp only at h1A h1B hC1
  rw [h1A, h1B, hC1]

/-- The sequential multiply leaves `A` and `B` alone and fills `C` with the
product table. -/
theorem seq_run (w : Int → Int) (num_rows_a num_cols_a num_rows_b num_cols_b : Nat)
    (A B C : Matrix) (hA : HasShape A num_rows_a num_cols_a)
    (hB : HasShape B num_cols_a num_cols_b) (hC : HasShape C num_rows_a num_cols_b) :
    sequential_matrix_multiply w num_rows_a num_cols_a num_rows_b num_cols_b ⟨A, B, C⟩ =
      some ⟨A, B, product w A B num_rows_a num_cols_a num_cols_b⟩ := by
  apply finish_run hC (fun i hi => List.mem_range.2 hi)
  exact run_rows w num_rows_a num_cols_a num_cols_b A B
    (fun i => for_loop num_cols_b (seq_j_step w num_cols_a i))
    (seq_row_spec w num_rows_a num_cols_a num_cols_b A B hA hB)
    (List.range num_rows_a) ⟨A, B, C⟩ (fun i hi => List.mem_range.1 hi) rfl rfl
    (readable_of_shape hC C rfl)

/-- The parallel multiply, under every schedule that runs each posted task
once, leaves `A` and `B` alone and fills `C` with the product table. -/
theorem par_run (w : Int → Int) (fuel : Nat) (sched : List Nat)
    (num_rows_a num_cols_a num_rows_b num_cols_b : Nat) (A B C : Matrix)
    (hf : num_cols_a ≤ fuel) (hs : sched.Perm (List.range num_rows_a))
    (hA : HasShape A num_rows_a num_cols_a) (hB : HasShape B num_cols_a num_cols_b)
    (hC : HasShape C num_rows_a num_cols_b) :
    parallel_matrix_multiply w fuel sched num_rows_a num_cols_a num_rows_b num_cols_b
        ⟨A, B, C⟩ =
      some ⟨A, B, product w A B num_rows_a num_cols_a num_cols_b⟩ := by
  apply finish_run hC (fun i hi => hs.mem_iff.2 (List.mem_range.2 hi))
  apply run_rows w num_rows_a num_cols_a num_cols_b A B _ _ sched ⟨A, B, C⟩
    (fun i hi => List.mem_range.1 (hs.mem_iff.1 hi)) rfl rfl (readable_of_shape hC C rfl)
  intro i hi m hmA hmB hCi
  simp only [posted_tasks_get w fuel num_rows_a num_cols_a num_cols_b i hi]
  exact row_task_spec w fuel num_rows_a num_cols_a num_cols_b A B hf hA hB i hi m hmA hmB hCi

theorem dot_id (A B : Matrix) (i j n : Nat) :
    dot id A B i j n = ∑ k ∈ Finset.range n, entry A i k * entry B k j :=
  foldl_id_eq_sum (fun k => entry A i k * entry B k j) n

/-- In 64 bit arithmetic a cell holds the exact dot product reduced to the
`long` range, on every input. -/
theorem dot_wrapLong (A B : Matrix) (i j n : Nat) :
    dot wrapLong A B i j n = wrapLong (∑ k ∈ Finset.range n, entry A i k * entry B k j) := by
  induction n with
  | zero =>
    have h0 : wrapLong 0 = 0 := by decide
    simp [dot, h0]
  | succ n ih =>
    rw [dot_succ, ih, Finset.sum_range_succ]
    exact wrapLong_add _ _

/-! ## The sequential multiply computes the product -/

/-- C1: for `A` of `num_rows_a` rows of `num_cols_a` entries, `B` of
`num_rows_b = num_cols_a` rows of `num_cols_b` entries and any pre-allocated
`C` of `num_rows_a` rows of `num_cols_b` entries, `sequential_matrix_multiply`
on 64 bit `long`s returns and leaves `A` and `B` as they were; every cell
`C[i][j]` then holds the sum over `k < num_cols_a` of `A[i][k] * B[k][j]`
reduced to the `long` range, hence that sum itself on every input whose sum is
representable as a `long` (so whenever no product and no partial sum
overflows).  In exact integer arithmetic every cell holds the sum. -/
theorem sequential_matrix_multiply_cells (num_rows_a num_cols_a num_rows_b num_cols_b : Nat)
    (A B C : Matrix) (hA : HasShape A num_rows_a num_cols_a)
    (hB : HasShape B num_rows_b num_cols_b) (hdim : num_cols_a = num_rows_b)
    (hC : HasShape C num_rows_a num_cols_b) :
    (∃ C1, sequential_matrix_multiply wrapLong num_rows_a num_cols_a num_rows_b num_cols_b
          ⟨A, B, C⟩ = some ⟨A, B, C1⟩ ∧
      HasShape C1 num_rows_a num_cols_b ∧
      (∀ i < num_rows_a, ∀ j < num_cols_b,
        read C1 i j =
          some (wrapLong (∑ k ∈ Finset.range num_cols_a, entry A i k * entry B k j))) ∧
      (∀ i < num_rows_a, ∀ j < num_cols_b,
        -2 ^ 63 ≤ ∑ k ∈ Finset.range num_cols_a, entry A i k * entry B k j →
        ∑ k ∈ Finset.range num_cols_a, entry A i k * entry B k j < 2 ^ 63 →
        read C1 i j = some (∑ k ∈ Finset.range num_cols_a, entry A i k * entry B k j))) ∧
    (∃ C1, sequential_matrix_multiply id num_rows_a num_cols_a num_rows_b num_cols_b ⟨A, B, C⟩
        = some ⟨A, B, C1⟩ ∧
      HasShape C1 num_rows_a num_cols_b ∧
      ∀ i < num_rows_a, ∀ j < num_cols_b,
        read C1 i j = some (∑ k ∈ Finset.range num_cols_a, entry A i k * entry B k j)) := by
  subst hdim
  have hcell : ∀ i < num_rows_a, ∀ j < num_cols_b,
      read (product wrapLong A B num_rows_a num_cols_a num_cols_b) i j =
        some (wrapLong (∑ k ∈ Finset.range num_cols_a, entry A i k * entry B k j)) := by
    intro i hi j hj
    rw [product, read_table _ hi hj, dot_wrapLong]
  constructor
  · refine ⟨product wrapLong A B num_rows_a num_cols_a num_cols_b,
      seq_run wrapLong num_rows_a num_cols_a num_cols_a num_cols_b A B C hA hB hC,
      shape_table _ _ _, hcell, ?_⟩
    intro i hi j hj hlo hhi
    rw [hcell i hi j hj, wrapLong_eq_self _ hlo hhi]
  · refine ⟨product id A B num_rows_a num_cols_a num_cols_b,
      seq_run id num_rows_a num_cols_a num_cols_a num_cols_b A B C hA hB hC,
      shape_table _ _ _, ?_⟩
    intro i hi j hj
    rw [product, read_table _ hi hj, dot_id]

/-- The scenario of C1: `[[1,2],[3,4]]` times `[[5,6],[7,8]]` on 64 bit `long`s
gives `[[19,22],[43,50]]`. -/
theorem sequential_matrix_multiply_cells_witness :
    sequential_matrix_multiply wrapLong 2 2 2 2
        ⟨[[1, 2], [3, 4]], [[5, 6], [7, 8]], [[0, 0], [0, 0]]⟩
      = some ⟨[[1, 2], [3, 4]], [[5, 6], [7, 8]], [[19, 22], [43, 50]]⟩ ∧
    ((∃ C1, sequential_matrix_multiply wrapLong 2 2 2 2
          ⟨[[1, 2], [3, 4]], [[5, 6], [7, 8]], [[0, 0], [0, 0]]⟩
        = some ⟨[[1, 2], [3, 4]], [[5, 6], [7, 8]], C1⟩ ∧
      HasShape C1 2 2 ∧
      (∀ i < 2, ∀ j < 2,
        read C1 i j = some (wrapLong (∑ k ∈ Finset.range 2,
          entry [[1, 2], [3, 4]] i k * entry [[5, 6], [7, 8]] k j))) ∧
      (∀ i < 2, ∀ j < 2,
        -2 ^ 63 ≤ ∑ k ∈ Finset.range 2,
          entry [[1, 2], [3, 4]] i k * entry [[5, 6], [7, 8]] k j →
        ∑ k ∈ Finset.range 2,
          entry [[1, 2], [3, 4]] i k * entry [[5, 6], [7, 8]] k j < 2 ^ 63 →
        read C1 i j = some (∑ k ∈ Finset.range 2,
          entry [[1, 2], [3, 4]] i k * entry [[5, 6], [7, 8]] k j))) ∧
    (∃ C1, sequential_matrix_multiply id 2 2 2 2
          ⟨[[1, 2], [3, 4]], [[5, 6], [7, 8]], [[0, 0], [0, 0]]⟩
        = some ⟨[[1, 2], [3, 4]], [[5, 6], [7, 8]], C1⟩ ∧
      HasShape C1 2 2 ∧
      ∀ i < 2, ∀ j < 2,
        read C1 i j = some (∑ k ∈ Finset.range 2,
          entry [[1, 2], [3, 4]] i k * entry [[5, 6], [7, 8]] k j))) :=
  ⟨by decide,
    sequential_matrix_multiply_cells 2 2 2 2 [[1, 2], [3, 4]] [[5, 6], [7, 8]] [[0, 0], [0, 0]]
      (by decide) (by decide) rfl (by decide)⟩

/-! ## The parallel multiply refines the sequential one -/

/-- C2: for `A` (m by k), `B` (k by n) and any two pre-allocated m by n outputs,
under every arithmetic, every schedule that runs each posted row task once and
enough fuel for the reducer, `parallel_matrix_multiply` and
`sequential_matrix_multiply` both return and their output matrices are equal
cell by cell. -/
theorem parallel_matrix_multiply_eq_sequential (w : Int → Int) (fuel : Nat) (sched : List Nat)
    (num_rows_a num_cols_a num_rows_b num_cols_b : Nat) (A B Cs Cp : Matrix)
    (hf : num_cols_a ≤ fuel) (hs : sched.Perm (List.range num_rows_a))
    (hA : HasShape A num_rows_a num_cols_a) (hB : HasShape B num_rows_b num_cols_b)
    (hdim : num_cols_a = num_rows_b)
    (hCs : HasShape Cs num_rows_a num_cols_b) (hCp : HasShape Cp num_rows_a num_cols_b) :
    ∃ Rs Rp,
      sequential_matrix_multiply w num_rows_a num_cols_a num_rows_b num_cols_b ⟨A, B, Cs⟩
        = some ⟨A, B, Rs⟩ ∧
      parallel_matrix_multiply w fuel sched num_rows_a num_cols_a num_rows_b num_cols_b
          ⟨A, B, Cp⟩ = some ⟨A, B, Rp⟩ ∧
      (∀ i j, read Rp i j = read Rs i j) ∧ Rp = Rs := by
  subst hdim
  exact ⟨_, _, seq_run w num_rows_a num_cols_a num_cols_a num_cols_b A B Cs hA hB hCs,
    par_run w fuel sched num_rows_a num_cols_a num_cols_a num_cols_b A B Cp hf hs hA hB hCp,
    fun _ _ => rfl, rfl⟩

/-- The scenario of C2: 64 bit arithmetic, the two row tasks run in reverse
order, different previous contents of the two outputs. -/
theorem parallel_matrix_multiply_eq_sequential_witness :
    ∃ Rs Rp,
      sequential_matrix_multiply wrapLong 2 2 2 2
          ⟨[[1, 2], [3, 4]], [[5, 6], [7, 8]], [[0, 0], [0, 0]]⟩
        = some ⟨[[1, 2], [3, 4]], [[5, 6], [7, 8]], Rs⟩ ∧
      parallel_matrix_multiply wrapLong 2 [1, 0] 2 2 2 2
          ⟨[[1, 2], [3, 4]], [[5, 6], [7, 8]], [[7, 7], [7, 7]]⟩
        = some ⟨[[1, 2], [3, 4]], [[5, 6], [7, 8]], Rp⟩ ∧
      (∀ i j, read Rp i j = read Rs i j) ∧ Rp = Rs :=
  parallel_matrix_multiply_eq_sequential wrapLong 2 [1, 0] 2 2 2 2
    [[1, 2], [3, 4]] [[5, 6], [7, 8]] [[0, 0], [0, 0]] [[7, 7], [7, 7]]
    (by decide) (by decide) (by decide) (by decide) rfl (by decide) (by decide)

/-! ## Determinism of the parallel multiply -/

/-- C7: for the same `A` and `B`, two runs of `parallel_matrix_multiply` that
execute the posted row tasks in any two orders, from any two previous contents
of `C`, both return and end with the same `C`, which is the product table, a
function of `A`, `B` and the dimensions alone. -/
theorem parallel_matrix_multiply_deterministic (w : Int → Int) (fuel1 fuel2 : Nat)
    (sched1 sched2 : List Nat) (num_rows_a num_cols_a num_rows_b num_cols_b : Nat)
    (A B C1 C2 : Matrix) (hf1 : num_cols_a ≤ fuel1) (hf2 : num_cols_a ≤ fuel2)
    (hs1 : sched1.Perm (List.range num_rows_a)) (hs2 : sched2.Perm (List.range num_rows_a))
    (hA : HasShape A num_rows_a num_cols_a) (hB : HasShape B num_rows_b num_cols_b)
    (hdim : num_cols_a = num_rows_b)
    (hC1 : HasShape C1 num_rows_a num_cols_b) (hC2 : HasShape C2 num_rows_a num_cols_b) :
    parallel_matrix_multiply w fuel1 sched1 num_rows_a num_cols_a num_rows_b num_cols_b
        ⟨A, B, C1⟩ =
      parallel_matrix_multiply w fuel2 sched2 num_rows_a num_cols_a num_rows_b num_cols_b
        ⟨A, B, C2⟩ ∧
    parallel_matrix_multiply w fuel1 sched1 num_rows_a num_cols_a num_rows_b num_cols_b
        ⟨A, B, C1⟩ = some ⟨A, B, product w A B num_rows_a num_cols_a num_cols_b⟩ := by
  subst hdim
  have h1 := par_run w fuel1 sched1 num_rows_a num_cols_a num_cols_a num_cols_b A B C1
    hf1 hs1 hA hB hC1
  have h2 := par_run w fuel2 sched2 num_rows_a num_cols_a num_cols_a num_cols_b A B C2
    hf2 hs2 hA hB hC2
  exact ⟨h1.trans h2.symm, h1⟩

/-- The scenario of C7: three rows run in the orders 2, 0, 1 and 1, 2, 0. -/
theorem parallel_matrix_multiply_deterministic_witness :
    parallel_matrix_multiply wrapLong 2 [2, 0, 1] 3 2 2 2
        ⟨[[1, 2], [3, 4], [5, 6]], [[5, 6], [7, 8]], [[0, 0], [0, 0], [0, 0]]⟩ =
      parallel_matrix_multiply wrapLong 5 [1, 2, 0] 3 2 2 2
        ⟨[[1, 2], [3, 4], [5, 6]], [[5, 6], [7, 8]], [[9, 9], [-1, 4], [3, 3]]⟩ ∧
    parallel_matrix_multiply wrapLong 2 [2, 0, 1] 3 2 2 2
        ⟨[[1, 2], [3, 4], [5, 6]], [[5, 6], [7, 8]], [[0, 0], [0, 0], [0, 0]]⟩ =
      some ⟨[[1, 2], [3, 4], [5, 6]], [[5, 6], [7, 8]],
        product wrapLong [[1, 2], [3, 4], [5, 6]] [[5, 6], [7, 8]] 3 2 2⟩ :=
  parallel_matrix_multiply_deterministic wrapLong 2 5 [2, 0, 1] [1, 2, 0] 3 2 2 2
    [[1, 2], [3, 4], [5, 6]] [[5, 6], [7, 8]] [[0, 0], [0, 0], [0, 0]]
    [[9, 9], [-1, 4], [3, 3]]
    (by decide) (by decide) (by decide) (by decide) (by decide) (by decide) rfl
    (by decide) (by decide)

/-! ## Index safety -/

/-- C10: under the stated preconditions both multiplies return a memory, so no
access `A[i][k]`, `B[k][j]` or `C[i][j]` they make falls outside its buffer;
and the result of neither depends on `num_rows_b`, which is never consulted:
the bound of `k` is `num_cols_a`. -/
theorem multiply_accesses_in_bounds (w : Int → Int) (fuel : Nat) (sched : List Nat)
    (num_rows_a num_cols_a num_rows_b num_cols_b : Nat) (A B C : Matrix)
    (hf : num_cols_a ≤ fuel) (hs : sched.Perm (List.range num_rows_a))
    (hA : HasShape A num_rows_a num_cols_a) (hB : HasShape B num_rows_b num_cols_b)
    (hdim : num_cols_a = num_rows_b) (hC : HasShape C num_rows_a num_cols_b) :
    (sequential_matrix_multiply w num_rows_a num_cols_a num_rows_b num_cols_b
        ⟨A, B, C⟩).isSome = true ∧
    (parallel_matrix_multiply w fuel sched num_rows_a num_cols_a num_rows_b num_cols_b
        ⟨A, B, C⟩).isSome = true ∧
    (∀ n : Nat, sequential_matrix_multiply w num_rows_a num_cols_a n num_cols_b ⟨A, B, C⟩ =
      sequential_matrix_multiply w num_rows_a num_cols_a num_rows_b num_cols_b ⟨A, B, C⟩) ∧
    (∀ n : Nat,
      parallel_matrix_multiply w fuel sched num_rows_a num_cols_a n num_cols_b ⟨A, B, C⟩ =
      parallel_matrix_multiply w fuel sched num_rows_a num_cols_a num_rows_b num_cols_b
        ⟨A, B, C⟩) := by
  subst hdim
  refine ⟨?_, ?_, fun _ => rfl, fun _ => rfl⟩
  · rw [seq_run w num_rows_a num_cols_a num_cols_a num_cols_b A B C hA hB hC]; rfl
  · rw [par_run w fuel sched num_rows_a num_cols_a num_cols_a num_cols_b A B C hf hs hA hB hC]
    rfl

/-- The scenario of C10: a 2 by 3 matrix times a 3 by 2 matrix. -/
theorem multiply_accesses_in_bounds_witness :
    (sequential_matrix_multiply wrapLong 2 3 3 2
        ⟨[[1, 2, 3], [4, 5, 6]], [[1, 0], [0, 1], [2, 2]], [[0, 0], [0, 0]]⟩).isSome = true ∧
    (parallel_matrix_multiply wrapLong 3 [0, 1] 2 3 3 2
        ⟨[[1, 2, 3], [4, 5, 6]], [[1, 0], [0, 1], [2, 2]], [[0, 0], [0, 0]]⟩).isSome = true ∧
    (∀ n : Nat, sequential_matrix_multiply wrapLong 2 3 n 2
        ⟨[[1, 2, 3], [4, 5, 6]], [[1, 0], [0, 1], [2, 2]], [[0, 0], [0, 0]]⟩ =
      sequential_matrix_multiply wrapLong 2 3 3 2
        ⟨[[1, 2, 3], [4, 5, 6]], [[1, 0], [0, 1], [2, 2]], [[0, 0], [0, 0]]⟩) ∧
    (∀ n : Nat, parallel_matrix_multiply wrapLong 3 [0, 1] 2 3 n 2
        ⟨[[1, 2, 3], [4, 5, 6]], [[1, 0], [0, 1], [2, 2]], [[0, 0], [0, 0]]⟩ =
      parallel_matrix_multiply wrapLong 3 [0, 1] 2 3 3 2
        ⟨[[1, 2, 3], [4, 5, 6]], [[1, 0], [0, 1], [2, 2]], [[0, 0], [0, 0]]⟩) :=
  multiply_accesses_in_bounds wrapLong 3 [0, 1] 2 3 3 2
    [[1, 2, 3], [4, 5, 6]] [[1, 0], [0, 1], [2, 2]] [[0, 0], [0, 0]]
    (by decide) (by decide) (by decide) (by decide) rfl (by decide)

/-! ## The frame of a row task -/

theorem row_ext {M M1 : Matrix} (hl : M1.map List.length = M.map List.length) (p : Nat)
    (hr : ∀ q, read M1 p q = read M p q) : M1[p]? = M[p]? := by
  have hlp := congrArg (fun l => l[p]?) hl
  simp only [List.getElem?_map] at hlp
  cases h1 : M1[p]? with
  | none =>
    cases h : M[p]? with
    | none => rfl
    | some r => rw [h1, h] at hlp; simp at hlp
  | some r1 =>
    cases h : M[p]? with
    | none => rw [h1, h] at hlp; simp at hlp
    | some r =>
      congr 1
      apply List.ext_getElem?
      intro q
      have := hr q
      simpa [read, h1, h] using this

/-- C6: for `i < num_rows_a`, the task posted for row `i` returns, leaves `A`
and `B` as they were, leaves every row of `C` other than row `i` as it was, and
changes no cell outside `C[i][j]`, `j < num_cols_b`; so for any other row
`i2` no cell is changed by both the task of row `i` and the task of row `i2`. -/
theorem row_task_frame (w : Int → Int) (fuel num_rows_a num_cols_a num_cols_b i : Nat)
    (m : Mem) (hi : i < num_rows_a) (hf : num_cols_a ≤ fuel)
    (hA : HasShape m.A num_rows_a num_cols_a) (hB : HasShape m.B num_cols_a num_cols_b)
    (hC : HasShape m.C num_rows_a num_cols_b) :
    ∃ m1, row_task w fuel num_cols_a num_cols_b i m = some m1 ∧
      m1.A = m.A ∧ m1.B = m.B ∧
      (∀ p, p ≠ i → m1.C[p]? = m.C[p]?) ∧
      (∀ p q, read m1.C p q ≠ read m.C p q → p = i ∧ q < num_cols_b) ∧
      ∀ i2 < num_rows_a, i2 ≠ i →
        ∃ m2, row_task w fuel num_cols_a num_cols_b i2 m = some m2 ∧
          ∀ p q, ¬ (read m1.C p q ≠ read m.C p q ∧ read m2.C p q ≠ read m.C p q) := by
  have hrd := readable_of_shape hC m.C rfl
  obtain ⟨m1, h1, h1A, h1B, h1L, h1R⟩ :=
    row_task_spec w fuel num_rows_a num_cols_a num_cols_b m.A m.B hf hA hB i hi m rfl rfl
      (hrd i hi)
  have hch1 : ∀ p q, read m1.C p q ≠ read m.C p q → p = i ∧ q < num_cols_b := by
    intro p q hne
    by_contra hcon
    exact hne (by rw [h1R, if_neg hcon])
  refine ⟨m1, h1, h1A, h1B, ?_, hch1, ?_⟩
  · intro p hp
    apply row_ext h1L
    intro q
    rw [h1R]; simp [hp]
  · intro i2 hi2 hne
    obtain ⟨m2, h2, _, _, _, h2R⟩ :=
      row_task_spec w fuel num_rows_a num_cols_a num_cols_b m.A m.B hf hA hB i2 hi2 m rfl rfl
        (hrd i2 hi2)
    refine ⟨m2, h2, ?_⟩
    rintro p q ⟨hc1, hc2⟩
    have hp1 := (hch1 p q hc1).1
    have hp2 : p = i2 := by
      by_contra hcon
      exact hc2 (by rw [h2R]; simp [hcon])
    exact hne (hp2.symm.trans hp1)

/-- The scenario of C6: the task of row 1 of a 3 by 2 output. -/
theorem row_task_frame_witness :
    ∃ m1, row_task wrapLong 2 2 2 1
        ⟨[[1, 2], [3, 4], [5, 6]], [[5, 6], [7, 8]], [[9, 9], [-1, 4], [3, 3]]⟩ = some m1 ∧
      m1.A = [[1, 2], [3, 4], [5, 6]] ∧ m1.B = [[5, 6], [7, 8]] ∧
      (∀ p, p ≠ 1 → m1.C[p]? = ([[9, 9], [-1, 4], [3, 3]] : Matrix)[p]?) ∧
      (∀ p q, read m1.C p q ≠ read [[9, 9], [-1, 4], [3, 3]] p q → p = 1 ∧ q < 2) ∧
      ∀ i2 < 3, i2 ≠ 1 →
        ∃ m2, row_task wrapLong 2 2 2 i2
            ⟨[[1, 2], [3, 4], [5, 6]], [[5, 6], [7, 8]], [[9, 9], [-1, 4], [3, 3]]⟩ = some m2 ∧
          ∀ p q, ¬ (read m1.C p q ≠ read [[9, 9], [-1, 4], [3, 3]] p q ∧
            read m2.C p q ≠ read [[9, 9], [-1, 4], [3, 3]] p q) :=
  row_task_frame wrapLong 2 3 2 2 1
    ⟨[[1, 2], [3, 4], [5, 6]], [[5, 6], [7, 8]], [[9, 9], [-1, 4], [3, 3]]⟩
    (by decide) (by decide) (by decide) (by decide) (by decide)

/-! ## Traversals of a LambdaIterable -/

theorem traverse_range {T : Type} (value : Nat → T) :
    ∀ (n fuel k : Nat), n ≤ fuel →
      traverse fuel
        { value := value, increment := fun i => i + 1, position := k }
        { value := value, increment := fun i => i + 1, position := k + n } =
      some ((List.range' k n).map (fun p => (p, value p))) := by
  intro n
  induction n with
  | zero =>
    intro fuel k _
    cases fuel <;> simp [traverse, iterator.ne, iterator.eq]
  | succ n ih =>
    intro fuel k hf
    obtain ⟨f, rfl⟩ : ∃ f, fuel = f + 1 := ⟨fuel - 1, by omega⟩
    have hne : k ≠ k + (n + 1) := by omega
    have hpos : k + (n + 1) = (k + 1) + n := by omega
    have ih1 := ih f (k + 1) (by omega)
    simp only [traverse, iterator.ne, iterator.eq, iterator.deref, iterator.next, hne,
      decide_False, Bool.not_false, if_true, List.range'_succ, List.map_cons]
    rw [hpos, ih1]

theorem accumulate_range {V S : Type} (v : Nat → V) (op : S → V → S) :
    ∀ (n fuel k : Nat) (init : S), n ≤ fuel →
      accumulate fuel
        { value := fun p => some (v p), increment := fun i => i + 1, position := k }
        { value := fun p => some (v p), increment := fun i => i + 1, position := k + n }
        init (fun s x => some (op s x)) =
      some ((List.range' k n).foldl (fun s p => op s (v p)) init) := by
  intro n
  induction n with
  | zero =>
    intro fuel k init _
    cases fuel <;> simp [accumulate, iterator.ne, iterator.eq]
  | succ n ih =>
    intro fuel k init hf
    obtain ⟨f, rfl⟩ : ∃ f, fuel = f + 1 := ⟨fuel - 1, by omega⟩
    have hne : k ≠ k + (n + 1) := by omega
    have hpos : k + (n + 1) = (k + 1) + n := by omega
    have ih1 := ih f (k + 1) (op init (v k)) (by omega)
    simp only [accumulate, iterator.ne, iterator.eq, iterator.deref, iterator.next, hne,
      decide_False, Bool.not_false, if_true, List.range'_succ, List.foldl_cons]
    rw [hpos, ih1]

/-- C8: for a `LambdaIterable` over `[first, last)` with `first <= last` and the
successor increment, the traversal from `begin()` to `end()` returns once the
fuel covers `last - first` steps, whatever the value function; it visits
exactly the positions `first, ..., last - 1`, that is `last - first` elements;
`std::accumulate` over it returns the fold over those positions; and two
iterators compare equal exactly when their positions are equal. -/
theorem lambda_iterable_traversal {T V S : Type} (value : Nat → T) (v : Nat → V)
    (op : S → V → S) (init : S) (first last fuel : Nat)
    (h : first ≤ last) (hf : last - first ≤ fuel) :
    traverse fuel
        (LambdaIterable.begin ⟨value, fun i => i + 1, first, last⟩)
        (LambdaIterable.end_ ⟨value, fun i => i + 1, first, last⟩) =
      some ((List.range' first (last - first)).map (fun p => (p, value p))) ∧
    ((List.range' first (last - first)).map (fun p => (p, value p))).length = last - first ∧
    (∀ p, p ∈ List.range' first (last - first) ↔ first ≤ p ∧ p < last) ∧
    accumulate fuel
        (LambdaIterable.begin ⟨fun p => some (v p), fun i => i + 1, first, last⟩)
        (LambdaIterable.end_ ⟨fun p => some (v p), fun i => i + 1, first, last⟩)
        init (fun s x => some (op s x)) =
      some ((List.range' first (last - first)).foldl (fun s p => op s (v p)) init) ∧
    (∀ a b : iterator T Nat, a.eq b = true ↔ a.position = b.position) := by
  have hl : last = first + (last - first) := by omega
  refine ⟨?_, by simp, ?_, ?_, ?_⟩
  · have := traverse_range value (last - first) fuel first hf
    rw [← hl] at this
    exact this
  · intro p
    rw [List.mem_range'_1]
    omega
  · have := accumulate_range v op (last - first) fuel first init hf
    rw [← hl] at this
    exact this
  · intro a b
    simp [iterator.eq]

/-- The scenario of C8: the range from 2 to 5 with fuel 3. -/
theorem lambda_iterable_traversal_witness :
    traverse 3
        (LambdaIterable.begin ⟨fun p => 10 * p, fun i => i + 1, 2, 5⟩)
        (LambdaIterable.end_ ⟨fun p => 10 * p, fun i => i + 1, 2, 5⟩) =
      some ((List.range' 2 (5 - 2)).map (fun p => (p, 10 * p))) ∧
    ((List.range' 2 (5 - 2)).map (fun p => (p, 10 * p))).length = 5 - 2 ∧
    (∀ p, p ∈ List.range' 2 (5 - 2) ↔ 2 ≤ p ∧ p < 5) ∧
    accumulate 3
        (LambdaIterable.begin ⟨fun p => some (p * p), fun i => i + 1, 2, 5⟩)
        (LambdaIterable.end_ ⟨fun p => some (p * p), fun i => i + 1, 2, 5⟩)
        (0 : Nat) (fun s x => some (s + x)) =
      some ((List.range' 2 (5 - 2)).foldl (fun s p => s + p * p) 0) ∧
    (∀ a b : iterator Nat Nat, a.eq b = true ↔ a.position = b.position) :=
  lambda_iterable_traversal (fun p => 10 * p) (fun p => p * p) (fun s x => s + x) 0 2 5 3
    (by decide) (by decide)

/-! ## The zip of two arrays -/

theorem zip_value_of_lt {α β : Type} (L : Nat) (s1 : List α) (s2 : List β) (k : Nat)
    (h1 : k < s1.length) (h2 : k < s2.length) :
    (zip_arrays_lazy L s1 s2).value k = some (s1.get ⟨k, h1⟩, s2.get ⟨k, h2⟩) := by
  simp [zip_arrays_lazy, List.getElem?_eq_getElem h1, List.getElem?_eq_getElem h2]

theorem zip_traverse {α β : Type} (L fuel : Nat) (s1 : List α) (s2 : List β) (hf : L ≤ fuel) :
    traverse fuel (zip_arrays_lazy L s1 s2).begin (zip_arrays_lazy L s1 s2).end_ =
      some ((List.range' 0 L).map (fun p => (p, (zip_arrays_lazy L s1 s2).value p))) := by
  have := traverse_range (zip_arrays_lazy L s1 s2).value L fuel 0 hf
  rw [Nat.zero_add] at this
  exact this

/-- C4: for sources `s1`, `s2` with at least `L` elements each, the traversal of
`zip_arrays_lazy(L, s1, s2)` from `begin()` to `end()` returns once the fuel
covers `L` steps and yields exactly `L` elements, the `k`-th being the tuple
`(s1[k], s2[k])` read at position `k`; every position read is below `L`, and
the traversal is the same when the sources are cut to their first `L`
elements, so nothing at an index `>= L` is read. -/
theorem zip_arrays_lazy_traversal {α β : Type} (L fuel : Nat) (s1 : List α) (s2 : List β)
    (h1 : L ≤ s1.length) (h2 : L ≤ s2.length) (hf : L ≤ fuel) :
    ∃ out, traverse fuel (zip_arrays_lazy L s1 s2).begin (zip_arrays_lazy L s1 s2).end_
        = some out ∧
      out.length = L ∧
      (∀ k (hk : k < L), out[k]? =
        some (k, some (s1.get ⟨k, lt_of_lt_of_le hk h1⟩, s2.get ⟨k, lt_of_lt_of_le hk h2⟩))) ∧
      (∀ x ∈ out, x.1 < L) ∧
      traverse fuel (zip_arrays_lazy L (s1.take L) (s2.take L)).begin
        (zip_arrays_lazy L (s1.take L) (s2.take L)).end_ = some out := by
  refine ⟨_, zip_traverse L fuel s1 s2 hf, by simp, ?_, ?_, ?_⟩
  · intro k hk
    rw [List.getElem?_map, List.getElem?_range' 0 1 hk]
    simp only [Option.map_some', Nat.zero_add, Nat.one_mul]
    rw [zip_value_of_lt L s1 s2 k (lt_of_lt_of_le hk h1) (lt_of_lt_of_le hk h2)]
  · intro x hx
    obtain ⟨p, hp, rfl⟩ := List.mem_map.1 hx
    have := List.mem_range'_1.1 hp
    simpa using this.2
  · rw [zip_traverse L fuel _ _ hf]
    congr 1
    apply List.map_congr_left
    intro p hp
    have hpL : p < L := by simpa using (List.mem_range'_1.1 hp).2
    simp [zip_arrays_lazy, List.getElem?_take_of_lt hpL]

/-- The scenario of C4: `[1,2,3,9]` and `[4,5,6,7,8]` zipped with length 3. -/
theorem zip_arrays_lazy_traversal_witness :
    traverse 3 (zip_arrays_lazy 3 [1, 2, 3] [4, 5, 6]).begin
        (zip_arrays_lazy 3 [1, 2, 3] [4, 5, 6]).end_ =
      some [(0, some (1, 4)), (1, some (2, 5)), (2, some (3, 6))] ∧
    traverse 3 (zip_arrays_lazy 3 [1, 2, 3, 9] [4, 5, 6, 7, 8]).begin
        (zip_arrays_lazy 3 [1, 2, 3, 9] [4, 5, 6, 7, 8]).end_ =
      some [(0, some (1, 4)), (1, some (2, 5)), (2, some (3, 6))] ∧
    ∃ out, traverse 3 (zip_arrays_lazy 3 [1, 2, 3, 9] [4, 5, 6, 7, 8]).begin
          (zip_arrays_lazy 3 [1, 2, 3, 9] [4, 5, 6, 7, 8]).end_ = some out ∧
      out.length = 3 ∧
      (∀ k (hk : k < 3), out[k]? =
        some (k, some (([1, 2, 3, 9] : List Int).get
            ⟨k, lt_of_lt_of_le hk (by decide : 3 ≤ ([1, 2, 3, 9] : List Int).length)⟩,
          ([4, 5, 6, 7, 8] : List Int).get
            ⟨k, lt_of_lt_of_le hk (by decide : 3 ≤ ([4, 5, 6, 7, 8] : List Int).length)⟩))) ∧
      (∀ x ∈ out, x.1 < 3) ∧
      traverse 3 (zip_arrays_lazy 3 (([1, 2, 3, 9] : List Int).take 3)
          (([4, 5, 6, 7, 8] : List Int).take 3)).begin
        (zip_arrays_lazy 3 (([1, 2, 3, 9] : List Int).take 3)
          (([4, 5, 6, 7, 8] : List Int).take 3)).end_ = some out :=
  ⟨by decide, by decide,
    zip_arrays_lazy_traversal 3 3 ([1, 2, 3, 9] : List Int) ([4, 5, 6, 7, 8] : List Int)
      (by decide) (by decide) (by decide)⟩

/-! ## Equivalence of the two reducers -/

/-- C3: for every length `L`, every `row` and `column` with at least `L`
elements and every combine `mult`, `product_row_column` (fused
`std::inner_product`) and `product_row_column_but_with_accumulate`
(`std::accumulate` over the zip, with fuel for `L` steps) return the same
result under every arithmetic.  For a total combine `f` both return the sum
over `k < L` of `f(row[k], column[k])` seeded at zero: in exact arithmetic
that sum; on 64 bit `long`s that sum reduced to the `long` range, hence the
sum itself on every input whose sum is representable as a `long` (so whenever
no partial sum overflows).  Length `0` gives `0`. -/
theorem reducers_equivalent {α β : Type} (w : Int → Int) (fuel L : Nat) (row : List α)
    (column : List β) (mult : α → β → Option Int) (f : α → β → Int)
    (hf : L ≤ fuel) (hr : L ≤ row.length) (hc : L ≤ column.length) :
    product_row_column w row column L mult =
      product_row_column_but_with_accumulate w fuel row column L mult ∧
    product_row_column id row column L (fun a b => some (f a b)) =
      some (∑ k : Fin L, f (row.get ⟨k.1, lt_of_lt_of_le k.2 hr⟩)
        (column.get ⟨k.1, lt_of_lt_of_le k.2 hc⟩)) ∧
    product_row_column_but_with_accumulate id fuel row column L (fun a b => some (f a b)) =
      some (∑ k : Fin L, f (row.get ⟨k.1, lt_of_lt_of_le k.2 hr⟩)
        (column.get ⟨k.1, lt_of_lt_of_le k.2 hc⟩)) ∧
    product_row_column wrapLong row column L (fun a b => some (f a b)) =
      some (wrapLong (∑ k : Fin L, f (row.get ⟨k.1, lt_of_lt_of_le k.2 hr⟩)
        (column.get ⟨k.1, lt_of_lt_of_le k.2 hc⟩))) ∧
    product_row_column_but_with_accumulate wrapLong fuel row column L
        (fun a b => some (f a b)) =
      some (wrapLong (∑ k : Fin L, f (row.get ⟨k.1, lt_of_lt_of_le k.2 hr⟩)
        (column.get ⟨k.1, lt_of_lt_of_le k.2 hc⟩))) ∧
    (-2 ^ 63 ≤ ∑ k : Fin L, f (row.get ⟨k.1, lt_of_lt_of_le k.2 hr⟩)
        (column.get ⟨k.1, lt_of_lt_of_le k.2 hc⟩) →
      ∑ k : Fin L, f (row.get ⟨k.1, lt_of_lt_of_le k.2 hr⟩)
        (column.get ⟨k.1, lt_of_lt_of_le k.2 hc⟩) < 2 ^ 63 →
      product_row_column wrapLong row column L (fun a b => some (f a b)) =
        some (∑ k : Fin L, f (row.get ⟨k.1, lt_of_lt_of_le k.2 hr⟩)
          (column.get ⟨k.1, lt_of_lt_of_le k.2 hc⟩)) ∧
      product_row_column_but_with_accumulate wrapLong fuel row column L
          (fun a b => some (f a b)) =
        some (∑ k : Fin L, f (row.get ⟨k.1, lt_of_lt_of_le k.2 hr⟩)
          (column.get ⟨k.1, lt_of_lt_of_le k.2 hc⟩))) ∧
    product_row_column w row column 0 mult = some 0 := by
  have hfold : ∀ w1 : Int → Int,
      product_row_column w1 row column L (fun a b => some (f a b)) =
        some ((List.range L).foldl
          (fun s t => w1 (s + (if h : t < L then f (row.get ⟨t, lt_of_lt_of_le h hr⟩)
            (column.get ⟨t, lt_of_lt_of_le h hc⟩) else 0))) 0) := by
    intro w1
    unfold product_row_column
    rw [inner_product_total row column _ _
      (fun t => if h : t < L then f (row.get ⟨t, lt_of_lt_of_le h hr⟩)
        (column.get ⟨t, lt_of_lt_of_le h hc⟩) else 0), ← List.range_eq_range']
    intro t _ ht
    have htL : t < L := by omega
    refine ⟨row.get ⟨t, lt_of_lt_of_le htL hr⟩, column.get ⟨t, lt_of_lt_of_le htL hc⟩,
      List.getElem?_eq_getElem _, List.getElem?_eq_getElem _, ?_⟩
    simp [htL]
  have hsum : (∑ t ∈ Finset.range L,
        (if h : t < L then f (row.get ⟨t, lt_of_lt_of_le h hr⟩)
          (column.get ⟨t, lt_of_lt_of_le h hc⟩) else 0)) =
      ∑ k : Fin L, f (row.get ⟨k.1, lt_of_lt_of_le k.2 hr⟩)
        (column.get ⟨k.1, lt_of_lt_of_le k.2 hc⟩) := by
    rw [Finset.sum_range]
    apply Finset.sum_congr rfl
    intro k _
    simp [k.2]
  have hid : product_row_column id row column L (fun a b => some (f a b)) =
      some (∑ k : Fin L, f (row.get ⟨k.1, lt_of_lt_of_le k.2 hr⟩)
        (column.get ⟨k.1, lt_of_lt_of_le k.2 hc⟩)) := by
    rw [hfold id, foldl_id_eq_sum, hsum]
  have hwrap : product_row_column wrapLong row column L (fun a b => some (f a b)) =
      some (wrapLong (∑ k : Fin L, f (row.get ⟨k.1, lt_of_lt_of_le k.2 hr⟩)
        (column.get ⟨k.1, lt_of_lt_of_le k.2 hc⟩))) := by
    rw [hfold wrapLong, foldl_wrapLong_eq_sum, hsum]
  refine ⟨(reducers_agree w fuel row column L mult hf).symm, hid, ?_, hwrap, ?_, ?_, rfl⟩
  · rw [reducers_agree id fuel row column L _ hf, hid]
  · rw [reducers_agree wrapLong fuel row column L _ hf, hwrap]
  · intro hlo hhi
    rw [reducers_agree wrapLong fuel row column L _ hf, hwrap, wrapLong_eq_self _ hlo hhi]
    exact ⟨rfl, rfl⟩

/-- The scenario of C3: the dot product of `[1,2,3,9]` and `[4,5,6,7]` over the
first three elements, on 64 bit `long`s and in exact arithmetic. -/
theorem reducers_equivalent_witness :
    product_row_column wrapLong ([1, 2, 3, 9] : List Int) ([4, 5, 6, 7] : List Int) 3
        (fun a b => some (a * b)) = some 32 ∧
    product_row_column_but_with_accumulate wrapLong 3 ([1, 2, 3, 9] : List Int)
        ([4, 5, 6, 7] : List Int) 3 (fun a b => some (a * b)) = some 32 ∧
    product_row_column wrapLong ([1, 2, 3, 9] : List Int) ([4, 5, 6, 7] : List Int) 3
        (fun a b => some (a * b)) =
      product_row_column_but_with_accumulate wrapLong 3 ([1, 2, 3, 9] : List Int)
        ([4, 5, 6, 7] : List Int) 3 (fun a b => some (a * b)) ∧
    product_row_column wrapLong ([1, 2, 3, 9] : List Int) ([4, 5, 6, 7] : List Int) 3
        (fun a b => some (a * b)) =
      some (wrapLong (∑ k : Fin 3, ([1, 2, 3, 9] : List Int).get
          ⟨k.1, lt_of_lt_of_le k.2 (by decide : 3 ≤ ([1, 2, 3, 9] : List Int).length)⟩ *
        ([4, 5, 6, 7] : List Int).get
          ⟨k.1, lt_of_lt_of_le k.2 (by decide : 3 ≤ ([4, 5, 6, 7] : List Int).length)⟩)) ∧
    product_row_column id ([1, 2, 3, 9] : List Int) ([4, 5, 6, 7] : List Int) 3
        (fun a b => some (a * b)) =
      some (∑ k : Fin 3, ([1, 2, 3, 9] : List Int).get
          ⟨k.1, lt_of_lt_of_le k.2 (by decide : 3 ≤ ([1, 2, 3, 9] : List Int).length)⟩ *
        ([4, 5, 6, 7] : List Int).get
          ⟨k.1, lt_of_lt_of_le k.2 (by decide : 3 ≤ ([4, 5, 6, 7] : List Int).length)⟩) :=
  have h := reducers_equivalent wrapLong 3 3 ([1, 2, 3, 9] : List Int) ([4, 5, 6, 7] : List Int)
    (fun a b => some (a * b)) (fun a b => a * b) (by decide) (by decide) (by decide)
  ⟨by decide, by decide, h.1, h.2.2.2.1, h.2.1⟩

/-! ## The identity law -/

theorem entry_identity {n i j : Nat} (hi : i < n) (hj : j < n) :
    entry (identity n) i j = if i = j then 1 else 0 := by
  have : read (identity n) i j = some (if i = j then 1 else 0) :=
    read_table (fun i j => if i = j then 1 else 0) hi hj
  rw [entry, this]; rfl

theorem dot_right_identity (w : Int → Int) (hw0 : w 0 = 0) (M : Matrix) (n i j : Nat)
    (hj : j < n) (hwM : w (entry M i j) = entry M i j) :
    ∀ n1 ≤ n, dot w M (identity n) i j n1 = if j < n1 then entry M i j else 0 := by
  intro n1
  induction n1 with
  | zero => intro _; rfl
  | succ n1 ih =>
    intro h1
    rw [dot_succ, ih (by omega), entry_identity (by omega : n1 < n) hj]
    by_cases hlt : j < n1
    · have hne : n1 ≠ j := by omega
      have hlt1 : j < n1 + 1 := by omega
      simp [hlt, hne, hlt1, hw0, hwM]
    · by_cases heq : n1 = j
      · subst heq; simp [hw0, hwM]
      · have hlt1 : ¬ j < n1 + 1 := by omega
        simp [hlt, heq, hlt1, hw0]

theorem dot_left_identity (w : Int → Int) (hw0 : w 0 = 0) (M : Matrix) (n i j : Nat)
    (hi : i < n) (hwM : w (entry M i j) = entry M i j) :
    ∀ n1 ≤ n, dot w (identity n) M i j n1 = if i < n1 then entry M i j else 0 := by
  intro n1
  induction n1 with
  | zero => intro _; rfl
  | succ n1 ih =>
    intro h1
    rw [dot_succ, ih (by omega), entry_identity hi (by omega : n1 < n)]
    by_cases hlt : i < n1
    · have hne : i ≠ n1 := by omega
      have hlt1 : i < n1 + 1 := by omega
      simp [hlt, hne, hlt1, hw0, hwM]
    · by_cases heq : i = n1
      · subst heq; simp [hw0, hwM]
      · have hlt1 : ¬ i < n1 + 1 := by omega
        simp [hlt, heq, hlt1, hw0]

theorem product_right_identity (w : Int → Int) (hw0 : w 0 = 0) (M : Matrix) (n : Nat)
    (hM : HasShape M n n) (hwM : ∀ i < n, ∀ j < n, w (entry M i j) = entry M i j) :
    product w M (identity n) n n n = M := by
  symm
  apply eq_table _ hM
  intro i hi j hj
  rw [read_of_shape hM hi hj,
    dot_right_identity w hw0 M n i j hj (hwM i hi j hj) n (le_refl n), if_pos hj]

theorem product_left_identity (w : Int → Int) (hw0 : w 0 = 0) (M : Matrix) (n : Nat)
    (hM : HasShape M n n) (hwM : ∀ i < n, ∀ j < n, w (entry M i j) = entry M i j) :
    product w (identity n) M n n n = M := by
  symm
  apply eq_table _ hM
  intro i hi j hj
  rw [read_of_shape hM hi hj,
    dot_left_identity w hw0 M n i j hi (hwM i hi j hj) n (le_refl n), if_pos hi]

/-- C5: for every `n` and every `n` by `n` matrix `M`, under an arithmetic that
represents `0` and the entries of `M` (exact arithmetic always does, 64 bit
arithmetic does for entries that are `long`s), multiplying `M` by the identity
on the right and on the left leaves `C` equal to `M`, with
`sequential_matrix_multiply` and with `parallel_matrix_multiply` under every
schedule that runs each posted row task once. -/
theorem identity_law (w : Int → Int) (fuel : Nat) (sched : List Nat) (n : Nat)
    (M C : Matrix) (hw0 : w 0 = 0)
    (hwM : ∀ i < n, ∀ j < n, w (entry M i j) = entry M i j)
    (hf : n ≤ fuel) (hs : sched.Perm (List.range n))
    (hM : HasShape M n n) (hC : HasShape C n n) :
    sequential_matrix_multiply w n n n n ⟨M, identity n, C⟩ = some ⟨M, identity n, M⟩ ∧
    sequential_matrix_multiply w n n n n ⟨identity n, M, C⟩ = some ⟨identity n, M, M⟩ ∧
    parallel_matrix_multiply w fuel sched n n n n ⟨M, identity n, C⟩
      = some ⟨M, identity n, M⟩ ∧
    parallel_matrix_multiply w fuel sched n n n n ⟨identity n, M, C⟩
      = some ⟨identity n, M, M⟩ := by
  have hI : HasShape (identity n) n n := shape_table n n _
  refine ⟨?_, ?_, ?_, ?_⟩
  · rw [seq_run w n n n n M (identity n) C hM hI hC, product_right_identity w hw0 M n hM hwM]
  · rw [seq_run w n n n n (identity n) M C hI hM hC, product_left_identity w hw0 M n hM hwM]
  · rw [par_run w fuel sched n n n n M (identity n) C hf hs hM hI hC,
      product_right_identity w hw0 M n hM hwM]
  · rw [par_run w fuel sched n n n n (identity n) M C hf hs hI hM hC,
      product_left_identity w hw0 M n hM hwM]

/-- The scenario of C5: a 2 by 2 matrix with entries of both signs in 64 bit
arithmetic, the row tasks run in reverse order. -/
theorem identity_law_witness :
    sequential_matrix_multiply wrapLong 2 2 2 2
        ⟨[[1, -2], [4611686018427387904, 4]], identity 2, [[0, 0], [0, 0]]⟩
      = some ⟨[[1, -2], [4611686018427387904, 4]], identity 2,
          [[1, -2], [4611686018427387904, 4]]⟩ ∧
    sequential_matrix_multiply wrapLong 2 2 2 2
        ⟨identity 2, [[1, -2], [4611686018427387904, 4]], [[0, 0], [0, 0]]⟩
      = some ⟨identity 2, [[1, -2], [4611686018427387904, 4]],
          [[1, -2], [4611686018427387904, 4]]⟩ ∧
    parallel_matrix_multiply wrapLong 2 [1, 0] 2 2 2 2
        ⟨[[1, -2], [4611686018427387904, 4]], identity 2, [[0, 0], [0, 0]]⟩
      = some ⟨[[1, -2], [4611686018427387904, 4]], identity 2,
          [[1, -2], [4611686018427387904, 4]]⟩ ∧
    parallel_matrix_multiply wrapLong 2 [1, 0] 2 2 2 2
        ⟨identity 2, [[1, -2], [4611686018427387904, 4]], [[0, 0], [0, 0]]⟩
      = some ⟨identity 2, [[1, -2], [4611686018427387904, 4]],
          [[1, -2], [4611686018427387904, 4]]⟩ :=
  identity_law wrapLong 2 [1, 0] 2 [[1, -2], [4611686018427387904, 4]] [[0, 0], [0, 0]]
    (by decide) (by decide) (by decide) (by decide) (by decide) (by decide)

/-! ## No overflow in the expected value range -/

theorem entry_mem_bounds {M : Matrix} {r c i j : Nat} {lo hi : Int} (hE : EntriesIn M lo hi)
    (h : HasShape M r c) (hi1 : i < r) (hj : j < c) :
    lo ≤ entry M i j ∧ entry M i j ≤ hi := by
  obtain ⟨row, hrow, hv⟩ := read_eq_some_iff.1 (read_of_shape h hi1 hj)
  obtain ⟨h1, h2⟩ := List.getElem?_eq_some.1 hrow
  obtain ⟨h3, h4⟩ := List.getElem?_eq_some.1 hv
  exact hE row (h2 ▸ List.getElem_mem h1) _ (h4 ▸ List.getElem_mem h3)

theorem term_bounds {a b : Int} (ha : 1 ≤ a ∧ a ≤ 100) (hb : 1 ≤ b ∧ b ≤ 100) :
    1 ≤ a * b ∧ a * b ≤ 10000 := by
  obtain ⟨ha1, ha2⟩ := ha
  obtain ⟨hb1, hb2⟩ := hb
  constructor
  · nlinarith
  · nlinarith

theorem dot_wrapLong_bounded (A B : Matrix) (i j : Nat) :
    ∀ n : Nat, n ≤ 1000 →
      (∀ k < n, 1 ≤ entry A i k * entry B k j ∧ entry A i k * entry B k j ≤ 10000) →
      dot wrapLong A B i j n = ∑ k ∈ Finset.range n, entry A i k * entry B k j ∧
      0 ≤ ∑ k ∈ Finset.range n, entry A i k * entry B k j ∧
      ∑ k ∈ Finset.range n, entry A i k * entry B k j ≤ 10000 * n := by
  intro n
  induction n with
  | zero => intro _ _; exact ⟨rfl, by simp, by simp⟩
  | succ n ih =>
    intro hn ht
    obtain ⟨h1, h2, h3⟩ := ih (by omega) (fun k hk => ht k (by omega))
    obtain ⟨t1, t2⟩ := ht n (by omega)
    have hn1 : (n : Int) ≤ 999 := by omega
    rw [dot_succ, h1, Finset.sum_range_succ,
      wrapLong_eq_self (entry A i n * entry B n j) (by omega) (by omega)]
    refine ⟨wrapLong_eq_self _ (by omega) (by omega), by omega, ?_⟩
    push_cast
    omega

/-- C9: with every entry of `A` and `B` in `1..100` and `num_cols_a <= 1000`,
every product formed lies in `0..10000000` and is represented exactly in 64
bits; after any number `n <= num_cols_a` of steps the accumulator of the
sequential `k` loop and the accumulator of the zip-then-accumulate reducer hold
the exact partial sum, which lies in `0..10000000`; and both multiplies give in
64 bit arithmetic the result they give in exact arithmetic. -/
theorem no_overflow_in_expected_range (fuel : Nat) (sched : List Nat)
    (num_rows_a num_cols_a num_rows_b num_cols_b : Nat) (A B C : Matrix)
    (hA : HasShape A num_rows_a num_cols_a) (hB : HasShape B num_rows_b num_cols_b)
    (hdim : num_cols_a = num_rows_b) (hC : HasShape C num_rows_a num_cols_b)
    (hEA : EntriesIn A 1 100) (hEB : EntriesIn B 1 100)
    (hk : num_cols_a ≤ 1000) (hf : num_cols_a ≤ fuel)
    (hs : sched.Perm (List.range num_rows_a)) :
    (∀ i < num_rows_a, ∀ j < num_cols_b, ∀ k < num_cols_a,
      0 ≤ entry A i k * entry B k j ∧ entry A i k * entry B k j ≤ 10000000 ∧
      wrapLong (entry A i k * entry B k j) = entry A i k * entry B k j) ∧
    (∀ i < num_rows_a, ∀ j < num_cols_b, ∀ n ≤ num_cols_a,
      0 ≤ ∑ k ∈ Finset.range n, entry A i k * entry B k j ∧
      ∑ k ∈ Finset.range n, entry A i k * entry B k j ≤ 10000000 ∧
      (∀ C0, write C i j 0 = some C0 →
        ∃ m1, for_loop n (seq_k_step wrapLong i j) ⟨A, B, C0⟩ = some m1 ∧
          read m1.C i j = some (∑ k ∈ Finset.range n, entry A i k * entry B k j)) ∧
      (∀ Ai, A[i]? = some Ai →
        product_row_column_but_with_accumulate wrapLong fuel Ai B n (mult_col wrapLong j) =
          some (∑ k ∈ Finset.range n, entry A i k * entry B k j))) ∧
    sequential_matrix_multiply wrapLong num_rows_a num_cols_a num_rows_b num_cols_b ⟨A, B, C⟩ =
      sequential_matrix_multiply id num_rows_a num_cols_a num_rows_b num_cols_b ⟨A, B, C⟩ ∧
    parallel_matrix_multiply wrapLong fuel sched num_rows_a num_cols_a num_rows_b num_cols_b
        ⟨A, B, C⟩ =
      parallel_matrix_multiply id fuel sched num_rows_a num_cols_a num_rows_b num_cols_b
        ⟨A, B, C⟩ ∧
    sequential_matrix_multiply wrapLong num_rows_a num_cols_a num_rows_b num_cols_b ⟨A, B, C⟩ =
      some ⟨A, B, table num_rows_a num_cols_b
        (fun i j => ∑ k ∈ Finset.range num_cols_a, entry A i k * entry B k j)⟩ := by
  subst hdim
  have hterm : ∀ i < num_rows_a, ∀ j < num_cols_b, ∀ k < num_cols_a,
      1 ≤ entry A i k * entry B k j ∧ entry A i k * entry B k j ≤ 10000 :=
    fun i hi j hj k hk =>
      term_bounds (entry_mem_bounds hEA hA hi hk) (entry_mem_bounds hEB hB hk hj)
  have hdot : ∀ i < num_rows_a, ∀ j < num_cols_b, ∀ n ≤ num_cols_a,
      dot wrapLong A B i j n = ∑ k ∈ Finset.range n, entry A i k * entry B k j ∧
      0 ≤ ∑ k ∈ Finset.range n, entry A i k * entry B k j ∧
      ∑ k ∈ Finset.range n, entry A i k * entry B k j ≤ 10000 * n :=
    fun i hi j hj n hn =>
      dot_wrapLong_bounded A B i j n (by omega) (fun k hk => hterm i hi j hj k (by omega))
  have hprod : product wrapLong A B num_rows_a num_cols_a num_cols_b =
      product id A B num_rows_a num_cols_a num_cols_b := by
    unfold product
    apply eq_table _ (shape_table _ _ _)
    intro i hi j hj
    rw [read_table _ hi hj, (hdot i hi j hj num_cols_a (le_refl _)).1, dot_id]
  have hseq := seq_run wrapLong num_rows_a num_cols_a num_cols_a num_cols_b A B C hA hB hC
  refine ⟨?_, ?_, ?_, ?_, ?_⟩
  · intro i hi j hj k hk
    obtain ⟨t1, t2⟩ := hterm i hi j hj k hk
    exact ⟨by omega, by omega, wrapLong_eq_self _ (by omega) (by omega)⟩
  · intro i hi j hj n hn
    obtain ⟨d1, d2, d3⟩ := hdot i hi j hj n hn
    have hn1 : (n : Int) ≤ 1000 := by omega
    refine ⟨d2, by omega, ?_, ?_⟩
    · intro C0 hC0
      have hrd : read C0 i j = some 0 := by rw [read_write hC0]; simp
      have hloop := seq_k_loop wrapLong i j ⟨A, B, C0⟩ 0 n hrd
        (fun k hk => read_of_shape hA hi (by omega))
        (fun k hk => read_of_shape hB (by omega) hj)
      obtain ⟨C1, hC1⟩ := write_isSome_of_read (dot wrapLong A B i j n) hrd
      refine ⟨⟨A, B, C1⟩, ?_, ?_⟩
      · rw [hloop]
        show (match write C0 i j (dot wrapLong A B i j n) with
          | some C1 => some (⟨A, B, C1⟩ : Mem)
          | none => none) = _
        rw [hC1]
      · rw [read_write hC1, ← d1]; simp
    · intro Ai hAi
      rw [reducer_dot wrapLong fuel n i j A B Ai (by omega) hAi
        (fun k hk => read_of_shape hA hi (by omega))
        (fun k hk => read_of_shape hB (by omega) hj), d1]
  · rw [hseq, seq_run id num_rows_a num_cols_a num_cols_a num_cols_b A B C hA hB hC, hprod]
  · rw [par_run wrapLong fuel sched num_rows_a num_cols_a num_cols_a num_cols_b A B C
        hf hs hA hB hC,
      par_run id fuel sched num_rows_a num_cols_a num_cols_a num_cols_b A B C hf hs hA hB hC,
      hprod]
  · rw [hseq, hprod]
    congr 2
    unfold product
    congr 1
    funext i j
    exact dot_id A B i j num_cols_a

/-- The scenario of C9: entries at both ends of `1..100`. -/
theorem no_overflow_in_expected_range_witness :
    (∀ i < 2, ∀ j < 2, ∀ k < 2,
      0 ≤ entry [[1, 100], [100, 100]] i k * entry [[100, 1], [100, 37]] k j ∧
      entry [[1, 100], [100, 100]] i k * entry [[100, 1], [100, 37]] k j ≤ 10000000 ∧
      wrapLong (entry [[1, 100], [100, 100]] i k * entry [[100, 1], [100, 37]] k j) =
        entry [[1, 100], [100, 100]] i k * entry [[100, 1], [100, 37]] k j) ∧
    (∀ i < 2, ∀ j < 2, ∀ n ≤ 2,
      0 ≤ ∑ k ∈ Finset.range n,
        entry [[1, 100], [100, 100]] i k * entry [[100, 1], [100, 37]] k j ∧
      ∑ k ∈ Finset.range n,
        entry [[1, 100], [100, 100]] i k * entry [[100, 1], [100, 37]] k j ≤ 10000000 ∧
      (∀ C0, write [[5, 5], [5, 5]] i j 0 = some C0 →
        ∃ m1, for_loop n (seq_k_step wrapLong i j)
            ⟨[[1, 100], [100, 100]], [[100, 1], [100, 37]], C0⟩ = some m1 ∧
          read m1.C i j = some (∑ k ∈ Finset.range n,
            entry [[1, 100], [100, 100]] i k * entry [[100, 1], [100, 37]] k j)) ∧
      (∀ Ai, ([[1, 100], [100, 100]] : Matrix)[i]? = some Ai →
        product_row_column_but_with_accumulate wrapLong 2 Ai [[100, 1], [100, 37]] n
            (mult_col wrapLong j) =
          some (∑ k ∈ Finset.range n,
            entry [[1, 100], [100, 100]] i k * entry [[100, 1], [100, 37]] k j))) ∧
    sequential_matrix_multiply wrapLong 2 2 2 2
        ⟨[[1, 100], [100, 100]], [[100, 1], [100, 37]], [[5, 5], [5, 5]]⟩ =
      sequential_matrix_multiply id 2 2 2 2
        ⟨[[1, 100], [100, 100]], [[100, 1], [100, 37]], [[5, 5], [5, 5]]⟩ ∧
    parallel_matrix_multiply wrapLong 2 [1, 0] 2 2 2 2
        ⟨[[1, 100], [100, 100]], [[100, 1], [100, 37]], [[5, 5], [5, 5]]⟩ =
      parallel_matrix_multiply id 2 [1, 0] 2 2 2 2
        ⟨[[1, 100], [100, 100]], [[100, 1], [100, 37]], [[5, 5], [5, 5]]⟩ ∧
    sequential_matrix_multiply wrapLong 2 2 2 2
        ⟨[[1, 100], [100, 100]], [[100, 1], [100, 37]], [[5, 5], [5, 5]]⟩ =
      some ⟨[[1, 100], [100, 100]], [[100, 1], [100, 37]], table 2 2
        (fun i j => ∑ k ∈ Finset.range 2,
          entry [[1, 100], [100, 100]] i k * entry [[100, 1], [100, 37]] k j)⟩ :=
  no_overflow_in_expected_range 2 [1, 0] 2 2 2 2
    [[1, 100], [100, 100]] [[100, 1], [100, 37]] [[5, 5], [5, 5]]
    (by decide) (by decide) rfl (by decide) (by decide) (by decide) (by decide) (by decide)
    (by decide)

/-! ## The failure branches are reachable

Outside the preconditions the checked model does fail: these evaluations show
that the `none` branches the theorems above exclude are live. -/

/-- With `num_cols_a = 2` and a `B` of one row the read `B[1][0]` is out of
bounds, whatever is passed for `num_rows_b`. -/
theorem sequential_short_B_fails :
    sequential_matrix_multiply id 1 2 1 1 ⟨[[1, 2]], [[1]], [[0]]⟩ = none ∧
    sequential_matrix_multiply id 1 2 2 1 ⟨[[1, 2]], [[1]], [[0]]⟩ = none := by
  decide

/-- An output with too few columns makes the store `C[0][1]` fail. -/
theorem parallel_short_C_fails :
    parallel_matrix_multiply id 2 [0] 1 2 2 2 ⟨[[1, 2]], [[1, 0], [0, 1]], [[0]]⟩ = none := by
  decide

/-- The iterator loop of the reducer does not return on less fuel than
`num_cols_a`. -/
theorem reducer_needs_fuel :
    product_row_column_but_with_accumulate id 2 ([1, 2, 3] : List Int) ([4, 5, 6] : List Int) 3
      (fun a b => some (a * b)) = none ∧
    product_row_column_but_with_accumulate id 3 ([1, 2, 3] : List Int) ([4, 5, 6] : List Int) 3
      (fun a b => some (a * b)) = some 32 := by
  decide

/-- On 64 bit `long`s a sum that is not representable wraps: the row
`[2^63 - 1, 1]` times the column `[1, 1]` leaves `-2^63` in the cell, where
exact arithmetic gives `2^63`. -/
theorem sequential_overflow_wraps :
    sequential_matrix_multiply wrapLong 1 2 2 1
        ⟨[[9223372036854775807, 1]], [[1], [1]], [[0]]⟩ =
      some ⟨[[9223372036854775807, 1]], [[1], [1]], [[-9223372036854775808]]⟩ ∧
    sequential_matrix_multiply id 1 2 2 1
        ⟨[[9223372036854775807, 1]], [[1], [1]], [[0]]⟩ =
      some ⟨[[9223372036854775807, 1]], [[1], [1]], [[9223372036854775808]]⟩ ∧
    product_row_column wrapLong ([9223372036854775807, 1] : List Int) ([1, 1] : List Int) 2
        (fun a b => some (a * b)) = some (-9223372036854775808) ∧
    product_row_column_but_with_accumulate wrapLong 2 ([9223372036854775807, 1] : List Int)
        ([1, 1] : List Int) 2 (fun a b => some (a * b)) = some (-9223372036854775808) := by
  decide

/-- In 64 bit arithmetic a product outside the `long` range wraps, so the
exact sum is only guaranteed inside the value range of C9. -/
theorem wrapLong_wraps :
    wrapLong (4611686018427387904 * 2) = -9223372036854775808 ∧
    wrapLong (-9223372036854775808) = -9223372036854775808 ∧
    wrapLong 9223372036854775807 = 9223372036854775807 := by
  decide

end MatMul
